import Mathlib

/-!
# Person records on a key-value world state (`profile.go`)

A shallow embedding of the chaincode in `src/go/profile.go` and proofs of its
record-management properties.

Modelling conventions.

* A Go `string` or `[]byte` is a sequence of bytes, `GoString`; it need not be
  valid UTF-8.  String literals of the program are written `lit "..."`.
* Go `int` is the 64-bit signed range, the subtype `GoInt` of `Int`.
* A Go `error` is a value of `Error`; a `nil` error is `none`.
* The world state is an association list in key order.  Every invocation is one
  committed transaction on it.  Every call of the ledger interface may be made
  to fail by a `Faults` oracle, so that all error branches of the source are
  present in the embedding.
* `encoding/json` is modelled concretely.  `jsonMarshal` renders the text that
  Go's `json.Marshal` produces for a `Person`; as in Go, string values are
  coerced to valid UTF-8, each invalid byte being written as U+FFFD.
  `jsonUnmarshal` is a parser for the JSON grammar followed by Go's struct
  decoding rules (field names matched without regard to case, `null` as no-op,
  unknown members ignored, the last duplicate wins, numbers for `int` fields
  must be integers in range).  The limit on nesting depth of recent Go versions
  is not modelled.
* Logging (`logger.Infoln`) and `defer ... Close()` have no effect on results and
  are left out.
-/

namespace Profile

/-! ## Strings, bytes and UTF-8 -/

/-- A Go `byte`. -/
abbrev Byte := Fin 256

/-- A Go `string` or `[]byte`: a sequence of bytes, not necessarily valid UTF-8. -/
abbrev GoString := List Byte

/-- The UTF-8 encoding of a character (`utf8.AppendRune`). -/
def encodeRune (c : Char) : GoString :=
  if c.toNat < 128 then [Fin.ofNat c.toNat]
  else if c.toNat < 2048 then
    [Fin.ofNat (192 + c.toNat / 64), Fin.ofNat (128 + c.toNat % 64)]
  else if c.toNat < 65536 then
    [Fin.ofNat (224 + c.toNat / 4096), Fin.ofNat (128 + c.toNat / 64 % 64),
      Fin.ofNat (128 + c.toNat % 64)]
  else
    [Fin.ofNat (240 + c.toNat / 262144), Fin.ofNat (128 + c.toNat / 4096 % 64),
      Fin.ofNat (128 + c.toNat / 64 % 64), Fin.ofNat (128 + c.toNat % 64)]

/-- The UTF-8 encoding of a text. -/
def encodeText : List Char → GoString
  | [] => []
  | c :: cs => encodeRune c ++ encodeText cs

/-- A continuation byte, `0x80` to `0xBF`. -/
def isContinuation (b : Byte) : Bool := 128 ≤ b.val ∧ b.val ≤ 191

/-- Go's `utf8.DecodeRune` on a non-empty string: the character at its front and the
number of bytes it takes, or `none` and 1 for a byte that starts no valid
encoding (Go's `RuneError` with width 1).  Overlong encodings, surrogates and
values above U+10FFFF are invalid. -/
def decodeRune (s0 : Byte) (rest : GoString) : Option Char × Nat :=
  if s0.val < 128 then (some (Char.ofNat s0.val), 1)
  else if s0.val < 194 then (none, 1)
  else if s0.val < 224 then
    match rest with
    | s1 :: _ =>
      if isContinuation s1 then
        (some (Char.ofNat ((s0.val - 192) * 64 + (s1.val - 128))), 2)
      else (none, 1)
    | _ => (none, 1)
  else if s0.val < 240 then
    match rest with
    | s1 :: s2 :: _ =>
      if (if s0.val = 224 then 160 else 128) ≤ s1.val
          ∧ s1.val ≤ (if s0.val = 237 then 159 else 191) ∧ isContinuation s2 then
        (some (Char.ofNat ((s0.val - 224) * 4096 + (s1.val - 128) * 64 + (s2.val - 128))), 3)
      else (none, 1)
    | _ => (none, 1)
  else if s0.val < 245 then
    match rest with
    | s1 :: s2 :: s3 :: _ =>
      if (if s0.val = 240 then 144 else 128) ≤ s1.val
          ∧ s1.val ≤ (if s0.val = 244 then 143 else 191) ∧ isContinuation s2
          ∧ isContinuation s3 then
        (some (Char.ofNat ((s0.val - 240) * 262144 + (s1.val - 128) * 4096
          + (s2.val - 128) * 64 + (s3.val - 128))), 4)
      else (none, 1)
    | _ => (none, 1)
  else (none, 1)

/-- The characters of a string as a `range` loop sees them, `none` standing for an
invalid byte.  `skip` is the number of bytes still belonging to the character
decoded last. -/
def decodeRunes : Nat → GoString → List (Option Char)
  | _, [] => []
  | skip + 1, _ :: rest => decodeRunes skip rest
  | 0, s0 :: rest => (decodeRune s0 rest).1 :: decodeRunes ((decodeRune s0 rest).2 - 1) rest

/-- The Unicode replacement character U+FFFD. -/
def replacementChar : Char := Char.ofNat 65533

/-- The text of a string, every invalid byte read as U+FFFD. -/
def textOf (s : GoString) : List Char :=
  (decodeRunes 0 s).map fun r => r.getD replacementChar

/-- The string coerced to valid UTF-8: every invalid byte is replaced by the
encoding of U+FFFD. -/
def toValidUTF8 (s : GoString) : GoString := encodeText (textOf s)

/-- The string with the given text (a string literal of the program). -/
def lit (s : String) : GoString := encodeText s.data

/-! ## Integers and `strconv.Itoa` -/

/-- Smallest value of a Go `int` (64-bit). -/
def minInt : Int := -9223372036854775808

/-- Largest value of a Go `int` (64-bit). -/
def maxInt : Int := 9223372036854775807

/-- Go's `int` on 64-bit platforms. -/
abbrev GoInt := { i : Int // minInt ≤ i ∧ i ≤ maxInt }

/-- The zero value of `int`. -/
def GoInt.zero : GoInt := ⟨0, by decide⟩

/-- The digit loop of `strconv.formatBits` for base 10: digits are produced from
the least significant one and prepended to `acc`.  The first argument bounds
the number of iterations; `u + 1` is always enough. -/
def formatBits : Nat → Nat → List Char → List Char
  | 0, _, acc => acc
  | fuel + 1, u, acc =>
    if 10 ≤ u then formatBits fuel (u / 10) (Char.ofNat (48 + u % 10) :: acc)
    else Char.ofNat (48 + u) :: acc

/-- Decimal digits of a natural number. -/
def formatNat (u : Nat) : List Char := formatBits (u + 1) u []

/-- The characters of `strconv.Itoa i`: a minus sign for negative numbers, then
the decimal digits of the magnitude. -/
def itoaChars (i : Int) : List Char :=
  if i < 0 then '-' :: formatNat i.natAbs else formatNat i.natAbs

/-- Go's `strconv.Itoa`. -/
def Itoa (i : GoInt) : GoString := encodeText (itoaChars i.val)

/-- Go's `strconv.FormatBool`. -/
def FormatBool (b : Bool) : GoString := if b then lit "true" else lit "false"

/-! ## The data model -/

/-- The `Person` struct. -/
structure Person where
  Name : GoString
  Age : GoInt
  IdType : GoString
  IdNo : GoInt
  Address : GoString
  IsEmployed : Bool
  IsMarried : Bool
deriving DecidableEq, Repr

/-- The zero value of `Person` (what `var person Person` declares). -/
def Person.zero : Person :=
  { Name := [], Age := GoInt.zero, IdType := [], IdNo := GoInt.zero, Address := [],
    IsEmployed := false, IsMarried := false }

/-- The `QueryResult` struct; `Record` points to a `Person` owned by the entry. -/
structure QueryResult where
  Key : GoString
  Record : Person
deriving DecidableEq, Repr

/-- Errors returned by `json.Unmarshal`. -/
inductive UnmarshalError where
  | syntaxError
  | typeError
deriving DecidableEq, Repr

/-- Go `error` values that occur in the program. -/
inductive Error where
  | errorf (msg : GoString)
  | ledger (msg : GoString)
  | json (e : UnmarshalError)
deriving DecidableEq, Repr

/-! ## `json.Marshal` for `Person` -/

/-- Lower-case hexadecimal digit, as in the `hex` table of `encoding/json`. -/
def hexDigit (d : Nat) : Char :=
  if d < 10 then Char.ofNat (48 + d) else Char.ofNat (87 + d)

/-- How `json.Marshal` (with HTML escaping, its default) writes one character of a
string. -/
def escapeChar (c : Char) : List Char :=
  if c = '"' then ['\\', '"']
  else if c = '\\' then ['\\', '\\']
  else if c = '\n' then ['\\', 'n']
  else if c = '\r' then ['\\', 'r']
  else if c = '\t' then ['\\', 't']
  else if c.toNat < 32 ∨ c = '<' ∨ c = '>' ∨ c = '&' then
    ['\\', 'u', '0', '0', hexDigit (c.toNat / 16), hexDigit (c.toNat % 16)]
  else if c = Char.ofNat 8232 then ['\\', 'u', '2', '0', '2', '8']
  else if c = Char.ofNat 8233 then ['\\', 'u', '2', '0', '2', '9']
  else [c]

/-- How `json.Marshal` writes one element of a string: a character as by
`escapeChar`, an invalid byte as the escape of U+FFFD. -/
def escapeRune : Option Char → List Char
  | some c => escapeChar c
  | none => ['\\', 'u', 'f', 'f', 'f', 'd']

/-- The escaped body of a JSON string. -/
def escapeRunes : List (Option Char) → List Char
  | [] => []
  | r :: rs => escapeRune r ++ escapeRunes rs

/-- A JSON string literal for a Go string. -/
def quote (s : GoString) : List Char := '"' :: (escapeRunes (decodeRunes 0 s) ++ ['"'])

/-- The JSON literal of a boolean. -/
def boolChars (b : Bool) : List Char := if b then "true".data else "false".data

/-- One member of the encoded object: the quoted field name, a colon, the value. -/
def fieldChars (name : String) (value : List Char) : List Char :=
  '"' :: (name.data ++ '"' :: ':' :: value)

/-- The characters `json.Marshal` produces for a `Person`: the seven fields in
declaration order under their tag names, separated by commas, without white
space. -/
def marshalChars (p : Person) : List Char :=
  '\x7b' :: (fieldChars "name" (quote p.Name) ++
  ',' :: (fieldChars "age" (itoaChars p.Age.val) ++
  ',' :: (fieldChars "idType" (quote p.IdType) ++
  ',' :: (fieldChars "idNo" (itoaChars p.IdNo.val) ++
  ',' :: (fieldChars "address" (quote p.Address) ++
  ',' :: (fieldChars "isEmployed" (boolChars p.IsEmployed) ++
  ',' :: (fieldChars "isMarried" (boolChars p.IsMarried) ++ ['\x7d'])))))))

/-- Go's `json.Marshal` on a `Person`.  It cannot fail for this struct. -/
def jsonMarshal (p : Person) : Except Error GoString := .ok (encodeText (marshalChars p))

/-! ## `json.Unmarshal` into a `Person`

The text is first parsed according to the JSON grammar accepted by Go's scanner,
then the resulting value is decoded into the struct. -/

/-- A parsed JSON value.  Numbers keep their literal, as Go converts it only when
the target type is known. -/
inductive JValue where
  | null
  | bool (b : Bool)
  | number (lit : List Char)
  | string (s : List Char)
  | array (items : List JValue)
  | object (members : List (List Char × JValue))

/-- White space of the JSON grammar. -/
def isSpace (c : Char) : Bool := c = ' ' ∨ c = '\t' ∨ c = '\r' ∨ c = '\n'

/-- Drop leading white space. -/
def skipSpace : List Char → List Char
  | [] => []
  | c :: cs => if isSpace c then skipSpace cs else c :: cs

/-- Decimal digit test. -/
def isDigit (c : Char) : Bool := 48 ≤ c.toNat ∧ c.toNat ≤ 57

/-- Value of a hexadecimal digit (either case), as accepted by `getu4`. -/
def hexValue (c : Char) : Option Nat :=
  if 48 ≤ c.toNat ∧ c.toNat ≤ 57 then some (c.toNat - 48)
  else if 97 ≤ c.toNat ∧ c.toNat ≤ 102 then some (c.toNat - 87)
  else if 65 ≤ c.toNat ∧ c.toNat ≤ 70 then some (c.toNat - 55)
  else none

/-- The number denoted by four hexadecimal digits. -/
def hex4 (a b c d : Char) : Option Nat :=
  match hexValue a, hexValue b, hexValue c, hexValue d with
  | some x, some y, some z, some w => some (((x * 16 + y) * 16 + z) * 16 + w)
  | _, _, _, _ => none

/-- The character denoted by a single-letter escape. -/
def simpleEscape (c : Char) : Option Char :=
  if c = '"' then some '"'
  else if c = '\\' then some '\\'
  else if c = '/' then some '/'
  else if c = 'b' then some (Char.ofNat 8)
  else if c = 'f' then some (Char.ofNat 12)
  else if c = 'n' then some '\n'
  else if c = 'r' then some '\r'
  else if c = 't' then some '\t'
  else none

/-- One element of a string literal: a character, or a `\uXXXX` code unit. -/
inductive StrItem where
  | char (c : Char)
  | unit (u : Nat)

/-- Scan a string literal after its opening quote: the items up to the closing
quote and the text after it.  Control characters and malformed escapes are
syntax errors. -/
def scanString : List Char → Option (List StrItem × List Char)
  | [] => none
  | c :: cs =>
    if c = '"' then some ([], cs)
    else if c = '\\' then
      match cs with
      | [] => none
      | e :: es =>
        if e = 'u' then
          match es with
          | a :: b :: c' :: d :: rest =>
            match hex4 a b c' d, scanString rest with
            | some u, some (items, tail) => some (StrItem.unit u :: items, tail)
            | _, _ => none
          | _ => none
        else
          match simpleEscape e, scanString es with
          | some x, some (items, tail) => some (StrItem.char x :: items, tail)
          | _, _ => none
    else if c.toNat < 32 then none
    else
      match scanString cs with
      | some (items, tail) => some (StrItem.char c :: items, tail)
      | none => none

/-- High (leading) UTF-16 surrogate. -/
def isHighSurrogate (u : Nat) : Bool := 55296 ≤ u ∧ u < 56320

/-- Low (trailing) UTF-16 surrogate. -/
def isLowSurrogate (u : Nat) : Bool := 56320 ≤ u ∧ u < 57344

/-- The characters denoted by the items of a string literal (`unquote`): a high
surrogate escape directly followed by a low surrogate escape is one character,
any other surrogate escape is U+FFFD.  `pending` is a high surrogate escape just
read. -/
def unquoteItems : Option Nat → List StrItem → List Char
  | none, [] => []
  | some _, [] => [replacementChar]
  | none, StrItem.char c :: rest => c :: unquoteItems none rest
  | some _, StrItem.char c :: rest => replacementChar :: c :: unquoteItems none rest
  | none, StrItem.unit u :: rest =>
    if isHighSurrogate u then unquoteItems (some u) rest
    else if isLowSurrogate u then replacementChar :: unquoteItems none rest
    else Char.ofNat u :: unquoteItems none rest
  | some h, StrItem.unit u :: rest =>
    if isLowSurrogate u then
      Char.ofNat ((h - 55296) * 1024 + (u - 56320) + 65536) :: unquoteItems none rest
    else if isHighSurrogate u then replacementChar :: unquoteItems (some u) rest
    else replacementChar :: Char.ofNat u :: unquoteItems none rest

/-- Take the longest prefix of digits. -/
def spanDigits : List Char → List Char × List Char
  | [] => ([], [])
  | c :: cs =>
    if isDigit c then ((spanDigits cs).1.cons c, (spanDigits cs).2) else ([], c :: cs)

/-- The integer part of a number: `0`, or a non-zero digit followed by digits. -/
def scanIntPart : List Char → Option (List Char × List Char)
  | [] => none
  | c :: cs =>
    if c = '0' then some (['0'], cs)
    else if isDigit c then some (c :: (spanDigits cs).1, (spanDigits cs).2)
    else none

/-- The optional fraction of a number: a dot followed by at least one digit. -/
def scanFraction : List Char → Option (List Char × List Char)
  | '.' :: cs =>
    match spanDigits cs with
    | ([], _) => none
    | (ds, rest) => some ('.' :: ds, rest)
  | cs => some ([], cs)

/-- The optional exponent of a number: `e` or `E`, an optional sign, and at least
one digit. -/
def scanExponent : List Char → Option (List Char × List Char)
  | [] => some ([], [])
  | c :: cs =>
    if c = 'e' ∨ c = 'E' then
      match cs with
      | [] => none
      | s :: ss =>
        if s = '+' ∨ s = '-' then
          match spanDigits ss with
          | ([], _) => none
          | (ds, rest) => some (c :: s :: ds, rest)
        else
          match spanDigits (s :: ss) with
          | ([], _) => none
          | (ds, rest) => some (c :: ds, rest)
    else some ([], c :: cs)

/-- Scan a number without its sign: integer part, fraction, exponent. -/
def scanUnsigned (cs : List Char) : Option (List Char × List Char) :=
  match scanIntPart cs with
  | none => none
  | some (ip, r1) =>
    match scanFraction r1 with
    | none => none
    | some (fp, r2) =>
      match scanExponent r2 with
      | none => none
      | some (ep, r3) => some (ip ++ fp ++ ep, r3)

/-- Scan a number literal. -/
def scanNumber : List Char → Option (List Char × List Char)
  | '-' :: cs =>
    match scanUnsigned cs with
    | some (lit, rest) => some ('-' :: lit, rest)
    | none => none
  | cs => scanUnsigned cs

/-- Remove a fixed word from the front of the text. -/
def dropWord : List Char → List Char → Option (List Char)
  | [], cs => some cs
  | _ :: _, [] => none
  | w :: ws, c :: cs => if w = c then dropWord ws cs else none

mutual

/-- Parse one JSON value at the front of the text (no leading white space).  The
first argument bounds the number of nested calls; the length of the text plus
one is always enough (`parseValue_bound`). -/
def parseValue : Nat → List Char → Option (JValue × List Char)
  | 0, _ => none
  | _ + 1, [] => none
  | fuel + 1, c :: cs =>
    if c = '\x7b' then
      match skipSpace cs with
      | '\x7d' :: rest => some (JValue.object [], rest)
      | rest => (parseMembers fuel rest).map fun r => (JValue.object r.1, r.2)
    else if c = '[' then
      match skipSpace cs with
      | ']' :: rest => some (JValue.array [], rest)
      | rest => (parseItems fuel rest).map fun r => (JValue.array r.1, r.2)
    else if c = '"' then
      (scanString cs).map fun r => (JValue.string (unquoteItems none r.1), r.2)
    else if c = 't' then (dropWord "rue".data cs).map fun r => (JValue.bool true, r)
    else if c = 'f' then (dropWord "alse".data cs).map fun r => (JValue.bool false, r)
    else if c = 'n' then (dropWord "ull".data cs).map fun r => (JValue.null, r)
    else (scanNumber (c :: cs)).map fun r => (JValue.number r.1, r.2)

/-- Parse the members of a non-empty object, up to and including the closing
brace.  The text starts at the first key. -/
def parseMembers : Nat → List Char → Option (List (List Char × JValue) × List Char)
  | 0, _ => none
  | _ + 1, [] => none
  | fuel + 1, c :: cs =>
    if c = '"' then
      match scanString cs with
      | none => none
      | some (key, r1) =>
        match skipSpace r1 with
        | ':' :: r2 =>
          match parseValue fuel (skipSpace r2) with
          | none => none
          | some (v, r3) =>
            match skipSpace r3 with
            | ',' :: r4 =>
              (parseMembers fuel (skipSpace r4)).map fun r =>
                ((unquoteItems none key, v) :: r.1, r.2)
            | '\x7d' :: r4 => some ([(unquoteItems none key, v)], r4)
            | _ => none
        | _ => none
    else none

/-- Parse the items of a non-empty array, up to and including the closing
bracket. -/
def parseItems : Nat → List Char → Option (List JValue × List Char)
  | 0, _ => none
  | fuel + 1, cs =>
    match parseValue fuel cs with
    | none => none
    | some (v, r1) =>
      match skipSpace r1 with
      | ',' :: r2 => (parseItems fuel (skipSpace r2)).map fun r => (v :: r.1, r.2)
      | ']' :: r2 => some ([v], r2)
      | _ => none

end

/-- Parse a complete JSON text: one value surrounded by optional white space. -/
def parseJSON (cs : List Char) : Option JValue :=
  match parseValue (cs.length + 1) (skipSpace cs) with
  | none => none
  | some (v, rest) => if skipSpace rest = [] then some v else none

/-- Case folding used to match object keys with field names: ASCII letters
ignore case, and the Kelvin sign and the long s match `k` and `s`. -/
def foldChar (c : Char) : Char :=
  if 65 ≤ c.toNat ∧ c.toNat ≤ 90 then Char.ofNat (c.toNat + 32)
  else if c = Char.ofNat 8490 then 'k'
  else if c = Char.ofNat 383 then 's'
  else c

/-- Does the object key select the field with this tag name? -/
def keyMatches (key : List Char) (name : String) : Bool :=
  key.map foldChar = name.data.map foldChar

/-- The value of a string of decimal digits. -/
def digitsValue (ds : List Char) : Nat :=
  ds.foldl (fun acc c => acc * 10 + (c.toNat - 48)) 0

/-- The `int` with the given value, if it is in the 64-bit range. -/
def toGoInt (i : Int) : Option GoInt :=
  if h : minInt ≤ i ∧ i ≤ maxInt then some ⟨i, h⟩ else none

/-- Conversion of a JSON number literal to `int` (`strconv.ParseInt` in base 10
with 64 bits): only an optional sign followed by digits is an integer, and the
value must fit. -/
def parseInt : List Char → Option GoInt
  | [] => none
  | c :: cs =>
    if c = '-' then
      if cs ≠ [] ∧ cs.all isDigit then toGoInt (-(digitsValue cs : Int)) else none
    else if (c :: cs).all isDigit then toGoInt (digitsValue (c :: cs)) else none

/-- Store a JSON value into a `string` field holding `cur`: `null` changes
nothing, only a JSON string is accepted. -/
def storeString (v : JValue) (cur : GoString) : Option GoString :=
  match v with
  | JValue.null => some cur
  | JValue.string s => some (encodeText s)
  | _ => none

/-- Store a JSON value into an `int` field holding `cur`: `null` changes nothing,
only a JSON number that is an integer in range is accepted. -/
def storeInt (v : JValue) (cur : GoInt) : Option GoInt :=
  match v with
  | JValue.null => some cur
  | JValue.number lit => parseInt lit
  | _ => none

/-- Store a JSON value into a `bool` field holding `cur`: `null` changes nothing,
only a JSON boolean is accepted. -/
def storeBool (v : JValue) (cur : Bool) : Option Bool :=
  match v with
  | JValue.null => some cur
  | JValue.bool b => some b
  | _ => none

/-- Store one object member into the struct.  A value of the wrong JSON type is
an error, a key that matches no field is ignored. -/
def setField (p : Person) (key : List Char) (v : JValue) : Option Person :=
  if keyMatches key "name" then
    (storeString v p.Name).map fun x => { p with Name := x }
  else if keyMatches key "age" then
    (storeInt v p.Age).map fun x => { p with Age := x }
  else if keyMatches key "idType" then
    (storeString v p.IdType).map fun x => { p with IdType := x }
  else if keyMatches key "idNo" then
    (storeInt v p.IdNo).map fun x => { p with IdNo := x }
  else if keyMatches key "address" then
    (storeString v p.Address).map fun x => { p with Address := x }
  else if keyMatches key "isEmployed" then
    (storeBool v p.IsEmployed).map fun x => { p with IsEmployed := x }
  else if keyMatches key "isMarried" then
    (storeBool v p.IsMarried).map fun x => { p with IsMarried := x }
  else some p

/-- Store the members of an object, in order, into the struct. -/
def decodeMembers : Person → List (List Char × JValue) → Option Person
  | p, [] => some p
  | p, (key, v) :: rest =>
    match setField p key v with
    | none => none
    | some q => decodeMembers q rest

/-- Go's `json.Unmarshal(data, &person)`, where `person` holds `init` before the
call.  The bytes are read as text, an invalid byte as U+FFFD (which is a
syntax error unless it stands in a string).  A text that is not JSON is a
syntax error; `null` changes nothing; an
object is decoded member by member; any other value is a type error. -/
def jsonUnmarshal (data : GoString) (init : Person) : Except Error Person :=
  match parseJSON (textOf data) with
  | none => .error (Error.json UnmarshalError.syntaxError)
  | some JValue.null => .ok init
  | some (JValue.object members) =>
    match decodeMembers init members with
    | some p => .ok p
    | none => .error (Error.json UnmarshalError.typeError)
  | some _ => .error (Error.json UnmarshalError.typeError)

/-! ## The world state and the ledger interface -/

/-- A key with its value, as returned by an iterator (`queryresult.KV`). -/
structure KV where
  Key : GoString
  Value : GoString
deriving DecidableEq, Repr

/-- The world state: the stored pairs in the order of their keys. -/
abbrev World := List KV

/-- The value stored at a key, if any. -/
def World.get : World → GoString → Option GoString
  | [], _ => none
  | kv :: rest, key => if kv.Key = key then some kv.Value else World.get rest key

/-- Go's `<` on strings: the lexicographic order of the bytes. -/
def stringLess : GoString → GoString → Bool
  | _, [] => false
  | [], _ :: _ => true
  | a :: as, b :: bs =>
    if a.val < b.val then true
    else if b.val < a.val then false
    else stringLess as bs

/-- Write a value at a key: replace the value of an existing entry, or insert a new
entry before the first larger key. -/
def World.put : World → GoString → GoString → World
  | [], key, value => [{ Key := key, Value := value }]
  | kv :: rest, key, value =>
    if kv.Key = key then { Key := key, Value := value } :: rest
    else if stringLess key kv.Key then { Key := key, Value := value } :: kv :: rest
    else kv :: World.put rest key value

/-- Remove a key. -/
def World.del (w : World) (key : GoString) : World :=
  w.filter fun kv => kv.Key ≠ key

/-- Failures of the ledger interface during one invocation: for each call, the
text of the error it returns, or `none` when the call goes through.  `next i`
is the outcome of the `i`-th `Next()` on an iterator. -/
structure Faults where
  getState : GoString → Option GoString
  putState : GoString → GoString → Option GoString
  delState : GoString → Option GoString
  getQueryResult : GoString → Option GoString
  getStateByRange : GoString → GoString → Option GoString
  next : Nat → Option GoString

/-- An invocation in which the ledger interface never fails. -/
def Faults.none : Faults :=
  { getState := fun _ => Option.none
    putState := fun _ _ => Option.none
    delState := fun _ => Option.none
    getQueryResult := fun _ => Option.none
    getStateByRange := fun _ _ => Option.none
    next := fun _ => Option.none }

/-- An iterator, given by the results of its successive `Next()` calls;
`HasNext()` holds while the list is not empty. -/
abbrev Iterator := List (Except Error KV)

/-- The stub's `GetState`: the stored value, `none` (Go `nil`) for an absent key, or
the text of the error of a failed read. -/
def GetState (f : Faults) (w : World) (key : GoString) :
    Except GoString (Option GoString) :=
  match f.getState key with
  | some err => .error err
  | Option.none => .ok (w.get key)

/-- The stub's `PutState`: the returned error and the world state afterwards.  A
failed write changes nothing. -/
def PutState (f : Faults) (w : World) (key value : GoString) : Option Error × World :=
  match f.putState key value with
  | some err => (some (Error.ledger err), w)
  | Option.none => (Option.none, w.put key value)

/-- The stub's `DelState`: the returned error and the world state afterwards. -/
def DelState (f : Faults) (w : World) (key : GoString) : Option Error × World :=
  match f.delState key with
  | some err => (some (Error.ledger err), w)
  | Option.none => (Option.none, w.del key)

/-- The iterator over the given pairs, from position `i` on. -/
def iterateFrom (f : Faults) : Nat → List KV → Iterator
  | _, [] => []
  | i, kv :: rest =>
    (match f.next i with
      | some err => Except.error (Error.ledger err)
      | Option.none => Except.ok kv) :: iterateFrom f (i + 1) rest

/-- The stub's `GetStateByRange`.  The program only calls it with empty bounds,
which select the whole key space; other bounds select the keys from `startKey`
(inclusive) up to `endKey` (exclusive). -/
def GetStateByRange (f : Faults) (w : World) (startKey endKey : GoString) :
    Except Error Iterator :=
  match f.getStateByRange startKey endKey with
  | some err => .error (Error.ledger err)
  | Option.none =>
    .ok (iterateFrom f 0 (w.filter fun kv =>
      (startKey = [] ∨ ¬ stringLess kv.Key startKey) ∧ (endKey = [] ∨ stringLess kv.Key endKey)))

/-- The selector the program sends for an employment flag:
`fmt.Sprintf("{\"selector\":{\"isEmployed\":%v}}", isEmployed)`. -/
def selectorQuery (isEmployed : Bool) : GoString :=
  lit "\x7b\"selector\":\x7b\"isEmployed\":" ++ FormatBool isEmployed ++ lit "\x7d\x7d"

/-- Modelled from the spec: the rich-query engine behind `GetQueryResult`, which is
outside the repository.  A stored value is selected by the query "attribute
`isEmployed` equals the flag" when it is a record whose `isEmployed` is the
flag; no other query occurs in the program. -/
def selects (query : GoString) (kv : KV) : Bool :=
  match jsonUnmarshal kv.Value Person.zero with
  | .ok p => query = selectorQuery p.IsEmployed
  | .error _ => false

/-- The stub's `GetQueryResult`: an iterator over the selected pairs, in key
order. -/
def GetQueryResult (f : Faults) (w : World) (query : GoString) : Except Error Iterator :=
  match f.getQueryResult query with
  | some err => .error (Error.ledger err)
  | Option.none => .ok (iterateFrom f 0 (w.filter (selects query)))

/-! ## The contract (`SmartContract` methods)

Each method takes the ledger interface of its transaction context, here the
fault oracle `f` and the world state `w`.  Methods that write return the error
(`none` for `nil`) together with the world state after the call. -/

/-- The method `CreatePerson`: build the record with both flags false, serialize it
and write it at the key `Itoa idNo`, whatever the key held before. -/
def CreatePerson (f : Faults) (w : World) (name : GoString) (age : GoInt)
    (idType : GoString) (idNo : GoInt) (address : GoString) : Option Error × World :=
  let key := idNo
  let person : Person :=
    { Name := name, Age := age, IdType := idType, IdNo := idNo, Address := address,
      IsEmployed := false, IsMarried := false }
  match jsonMarshal person with
  | .error _ => (some (Error.errorf (lit "CreatePerson: unable to Marshal  ")), w)
  | .ok personAsBytes => PutState f w (Itoa key) personAsBytes

/-- The method `GetById`: read the value at the key `Itoa idNo` and deserialize it.
The first test can never succeed, as `Itoa` never returns the empty string. -/
def GetById (f : Faults) (w : World) (idNo : GoInt) : Except Error Person :=
  if Itoa idNo = lit "" then
    .error (Error.errorf (lit "GetById: input parameters must not be empty"))
  else
    match GetState f w (Itoa idNo) with
    | .error err =>
      .error (Error.errorf (lit "GetById: failed to read from world state: " ++ err))
    | .ok Option.none =>
      .error (Error.errorf
        (lit "GetById: the person " ++ Itoa idNo ++ lit " does not exist"))
    | .ok (some queryResult) =>
      match jsonUnmarshal queryResult Person.zero with
      | .error err => .error err
      | .ok person => .ok person

/-- The method `UpdateDetails`: read the record through `GetById`, overwrite its four
mutable fields, serialize it and write it back at the key `Itoa idNo`. -/
def UpdateDetails (f : Faults) (w : World) (idNo : GoInt) (age : GoInt) (address : GoString)
    (isEmployed : Bool) (isMarried : Bool) : Option Error × World :=
  match GetById f w idNo with
  | .error err => (some err, w)
  | .ok queryResult =>
    let queryResult := { queryResult with Age := age }
    let queryResult := { queryResult with Address := address }
    let queryResult := { queryResult with IsEmployed := isEmployed }
    let queryResult := { queryResult with IsMarried := isMarried }
    match jsonMarshal queryResult with
    | .error _ => (some (Error.errorf (lit "UpdateDetails: unable to Marshal  ")), w)
    | .ok personAsBytes => PutState f w (Itoa idNo) personAsBytes

/-- The loop of `GetEmployed` over the iterator; `people` is the slice built so
far. -/
def employedLoop : Iterator → List Person → Except Error (List Person)
  | [], people => .ok people
  | next :: rest, people =>
    match next with
    | .error err => .error err
    | .ok responseRange =>
      match jsonUnmarshal responseRange.Value Person.zero with
      | .error err => .error err
      | .ok person =>
        if !person.IsMarried then employedLoop rest (people ++ [person])
        else employedLoop rest people

/-- The method `GetEmployed`.  The slice `people` is `nil` exactly when nothing was
appended. -/
def GetEmployed (f : Faults) (w : World) (isEmployed : Bool) : Except Error (List Person) :=
  let queryResult := selectorQuery isEmployed
  match GetQueryResult f w queryResult with
  | .error err => .error err
  | .ok queryResultsIterator =>
    match employedLoop queryResultsIterator [] with
    | .error err => .error err
    | .ok people =>
      if people = [] then
        .error (Error.errorf
          (lit "GetEmployed: the person " ++ FormatBool isEmployed ++ lit " does not exist"))
      else .ok people

/-- The loop of `GetPeople` over the iterator. -/
def peopleLoop : Iterator → List QueryResult → Except Error (List QueryResult)
  | [], people => .ok people
  | next :: rest, people =>
    match next with
    | .error err => .error err
    | .ok queryResponse =>
      match jsonUnmarshal queryResponse.Value Person.zero with
      | .error err => .error err
      | .ok person =>
        let queryResult : QueryResult := { Key := queryResponse.Key, Record := person }
        peopleLoop rest (people ++ [queryResult])

/-- The method `GetPeople`: scan the whole key space and list one `QueryResult` per
pair. -/
def GetPeople (f : Faults) (w : World) : Except Error (List QueryResult) :=
  match GetStateByRange f w (lit "") (lit "") with
  | .error err => .error err
  | .ok resultsIterator =>
    match peopleLoop resultsIterator [] with
    | .error err => .error err
    | .ok people =>
      if people = [] then .error (Error.errorf (lit "no records available"))
      else .ok people

/-- The method `DeleteAll`: read the record through `GetById`, then delete the key
derived from the `IdNo` of the record read. -/
def DeleteAll (f : Faults) (w : World) (key : GoInt) : Option Error × World :=
  match GetById f w key with
  | .error err => (some err, w)
  | .ok data => DelState f w (Itoa data.IdNo)

/-- What the digit loop produces: a non-empty string of digits denoting `u`,
with a leading zero only for zero itself. -/
structure IsDecimal (ds : List Char) (u : Nat) : Prop where
  ne_nil : ds ≠ []
  digits : ds.all isDigit = true
  value : digitsValue ds = u
  zero : ds.head? = some '0' → ds = ['0']

/-- A character that ends a member value in the encoded object. -/
def isDelimiter (t : Char) : Prop := t = ',' ∨ t = '\x7d'

/-- The JSON value that the encoded record denotes. -/
def personValue (p : Person) : JValue :=
  JValue.object
    [("name".data, JValue.string (textOf p.Name)),
     ("age".data, JValue.number (itoaChars p.Age.val)),
     ("idType".data, JValue.string (textOf p.IdType)),
     ("idNo".data, JValue.number (itoaChars p.IdNo.val)),
     ("address".data, JValue.string (textOf p.Address)),
     ("isEmployed".data, JValue.bool p.IsEmployed),
     ("isMarried".data, JValue.bool p.IsMarried)]

/-- The record that the encoding of a record denotes: its strings are coerced to
valid UTF-8, everything else is kept. -/
def coerce (p : Person) : Person :=
  { Name := toValidUTF8 p.Name, Age := p.Age, IdType := toValidUTF8 p.IdType, IdNo := p.IdNo,
    Address := toValidUTF8 p.Address, IsEmployed := p.IsEmployed, IsMarried := p.IsMarried }

/-- Valid UTF-8: the string is not changed by the coercion of the encoder. -/
def ValidUTF8 (s : GoString) : Prop := toValidUTF8 s = s

/-- The three strings of a record are valid UTF-8. -/
def WellFormed (p : Person) : Prop :=
  ValidUTF8 p.Name ∧ ValidUTF8 p.IdType ∧ ValidUTF8 p.Address

/-! ## Specification-level notions -/

/-- The world states that the contract can produce: those reached from the empty
world state by successful `CreatePerson`, `UpdateDetails` and `DeleteAll`
invocations, each with an arbitrary behaviour of the ledger interface. -/
inductive Reachable : World → Prop where
  | empty : Reachable []
  | create (f : Faults) (w w' : World) (name : GoString) (age : GoInt) (idType : GoString)
      (idNo : GoInt) (address : GoString) :
      Reachable w → CreatePerson f w name age idType idNo address = (none, w') → Reachable w'
  | update (f : Faults) (w w' : World) (idNo age : GoInt) (address : GoString)
      (isEmployed isMarried : Bool) :
      Reachable w → UpdateDetails f w idNo age address isEmployed isMarried = (none, w') →
      Reachable w'
  | delete (f : Faults) (w w' : World) (key : GoInt) :
      Reachable w → DeleteAll f w key = (none, w') → Reachable w'

/-- Every stored pair holds a record, and its key is the decimal string of the
record's `idNo`. -/
def KeyedById (w : World) : Prop :=
  ∀ kv ∈ w, ∃ p, jsonUnmarshal kv.Value Person.zero = .ok p ∧ Itoa p.IdNo = kv.Key

/-- The stored pairs are in strictly increasing key order; in particular every key
occurs once. -/
def Increasing (w : World) : Prop :=
  w.Pairwise fun a b => stringLess a.Key b.Key = true

/-- The records held by the stored values that deserialize, in key order. -/
def records (w : World) : List Person :=
  w.filterMap fun kv => (jsonUnmarshal kv.Value Person.zero).toOption

/-- The entries that `GetPeople` builds from scanned pairs: one per pair whose value
deserializes, with the pair's key. -/
def listing (kvs : List KV) : List QueryResult :=
  kvs.filterMap fun kv =>
    match jsonUnmarshal kv.Value Person.zero with
    | .ok p => some { Key := kv.Key, Record := p }
    | .error _ => none

/-- The not-found error of `GetById`. -/
def notFound (idNo : GoInt) : Error :=
  Error.errorf (lit "GetById: the person " ++ Itoa idNo ++ lit " does not exist")

/-- The record that `CreatePerson` writes for its arguments. -/
def created (name : GoString) (age : GoInt) (idType : GoString) (idNo : GoInt) (address : GoString) :
    Person :=
  { Name := name, Age := age, IdType := idType, IdNo := idNo, Address := address,
    IsEmployed := false, IsMarried := false }

/-- Call `CreatePerson` with the name, age, idType, idNo and address of each given
record, one after the other, the ledger never failing. -/
def createAll : World → List Person → World
  | w, [] => w
  | w, p :: ps =>
    createAll (CreatePerson Faults.none w p.Name p.Age p.IdType p.IdNo p.Address).2 ps

/-! ## Sample data -/

/-- The identifier 1. -/
def one : GoInt := ⟨1, by decide⟩

/-- The identifier 2. -/
def two : GoInt := ⟨2, by decide⟩

/-- The identifier 3. -/
def three : GoInt := ⟨3, by decide⟩

/-- The identifier 5. -/
def five : GoInt := ⟨5, by decide⟩

/-- The identifier 7. -/
def seven : GoInt := ⟨7, by decide⟩

/-- A sample record with `idNo` 7. -/
def ann : Person :=
  { Name := lit "Ann", Age := ⟨30, by decide⟩, IdType := lit "passport", IdNo := seven,
    Address := lit "12 Main St", IsEmployed := false, IsMarried := false }

/-- The world state after creating `ann` on the empty world state. -/
def annWorld : World :=
  (CreatePerson Faults.none [] (lit "Ann") ⟨30, by decide⟩ (lit "passport") seven
    (lit "12 Main St")).2

/-- A world state that no sequence of calls produces: the record stored at key `5`
carries `idNo` 7. -/
def mislabelled : World :=
  [{ Key := lit "5", Value := encodeText (marshalChars ann) },
   { Key := lit "7", Value := encodeText (marshalChars ann) }]

/-- Record A of the filter example: employed, not married. -/
def recordA : Person :=
  { Name := lit "A", Age := ⟨20, by decide⟩, IdType := lit "passport", IdNo := one,
    Address := lit "a",
    IsEmployed := true, IsMarried := false }

/-- Record B of the filter example: employed, married. -/
def recordB : Person :=
  { Name := lit "B", Age := ⟨21, by decide⟩, IdType := lit "passport", IdNo := two,
    Address := lit "b",
    IsEmployed := true, IsMarried := true }

/-- Record C of the filter example: not employed, not married. -/
def recordC : Person :=
  { Name := lit "C", Age := ⟨22, by decide⟩, IdType := lit "passport", IdNo := three,
    Address := lit "c",
    IsEmployed := false, IsMarried := false }

/-- The world state of the filter example: A, B and C under their keys. -/
def abcWorld : World :=
  [{ Key := lit "1", Value := encodeText (marshalChars recordA) },
   { Key := lit "2", Value := encodeText (marshalChars recordB) },
   { Key := lit "3", Value := encodeText (marshalChars recordC) }]

/-- The parsers succeed with bound `n` only by consuming text, and then every
bound that is at least the number of consumed characters gives the same
result. -/
def Adequate (n : Nat) : Prop :=
  (∀ cs v rest, parseValue n cs = some (v, rest) →
    rest.length < cs.length ∧
      ∀ k, cs.length - rest.length ≤ k → parseValue k cs = some (v, rest))
  ∧ (∀ cs ms rest, parseMembers n cs = some (ms, rest) →
    rest.length < cs.length ∧
      ∀ k, cs.length - rest.length ≤ k → parseMembers k cs = some (ms, rest))
  ∧ (∀ cs vs rest, parseItems n cs = some (vs, rest) →
    rest.length < cs.length ∧
      ∀ k, cs.length - rest.length ≤ k → parseItems k cs = some (vs, rest))

/-! ## UTF-8 -/

theorem char_range (c : Char) :
    c.toNat < 55296 ∨ (57343 < c.toNat ∧ c.toNat < 1114112) := by
  have := c.valid
  simp only [UInt32.isValidChar, Nat.isValidChar] at this
  exact this

theorem val_ofNat (n : Nat) (h : n < 256) : (Fin.ofNat n : Byte).val = n :=
  Nat.mod_eq_of_lt h

theorem decodeRune_two (s0 s1 : Byte) (rest : GoString) (h0 : 194 ≤ s0.val)
    (h0' : s0.val < 224) (h1 : 128 ≤ s1.val) (h1' : s1.val ≤ 191) :
    decodeRune s0 (s1 :: rest)
      = (some (Char.ofNat ((s0.val - 192) * 64 + (s1.val - 128))), 2) := by
  have c1 : ¬ s0.val < 128 := by omega
  have c2 : ¬ s0.val < 194 := by omega
  simp [decodeRune, c1, c2, h0', isContinuation, h1, h1']

theorem decodeRune_three (s0 s1 s2 : Byte) (rest : GoString) (h0 : 224 ≤ s0.val)
    (h0' : s0.val < 240) (h1 : (if s0.val = 224 then 160 else 128) ≤ s1.val)
    (h1' : s1.val ≤ (if s0.val = 237 then 159 else 191))
    (h2 : 128 ≤ s2.val) (h2' : s2.val ≤ 191) :
    decodeRune s0 (s1 :: s2 :: rest)
      = (some (Char.ofNat ((s0.val - 224) * 4096 + (s1.val - 128) * 64 + (s2.val - 128))),
          3) := by
  have c1 : ¬ s0.val < 128 := by omega
  have c2 : ¬ s0.val < 194 := by omega
  have c3 : ¬ s0.val < 224 := by omega
  simp only [decodeRune, c1, c2, c3, h0', if_false, if_true, isContinuation, h1, h1', h2, h2',
    and_self, decide_True]

theorem decodeRune_four (s0 s1 s2 s3 : Byte) (rest : GoString) (h0 : 240 ≤ s0.val)
    (h0' : s0.val < 245) (h1 : (if s0.val = 240 then 144 else 128) ≤ s1.val)
    (h1' : s1.val ≤ (if s0.val = 244 then 143 else 191))
    (h2 : 128 ≤ s2.val) (h2' : s2.val ≤ 191) (h3 : 128 ≤ s3.val) (h3' : s3.val ≤ 191) :
    decodeRune s0 (s1 :: s2 :: s3 :: rest)
      = (some (Char.ofNat ((s0.val - 240) * 262144 + (s1.val - 128) * 4096
          + (s2.val - 128) * 64 + (s3.val - 128))), 4) := by
  have c1 : ¬ s0.val < 128 := by omega
  have c2 : ¬ s0.val < 194 := by omega
  have c3 : ¬ s0.val < 224 := by omega
  have c4 : ¬ s0.val < 240 := by omega
  simp only [decodeRune, c1, c2, c3, c4, h0', if_false, if_true, isContinuation, h1, h1', h2,
    h2', h3, h3', and_self, decide_True]

/-- Decoding the encoding of a character gives the character and the width of its
encoding. -/
theorem decodeRunes_encodeRune (c : Char) (s : GoString) :
    decodeRunes 0 (encodeRune c ++ s) = some c :: decodeRunes 0 s := by
  have hr := char_range c
  unfold encodeRune
  by_cases h1 : c.toNat < 128
  · simp only [h1, if_true, List.cons_append, List.nil_append, decodeRunes, decodeRune,
      val_ofNat _ (show c.toNat < 256 by omega), Char.ofNat_toNat]
  · by_cases h2 : c.toNat < 2048
    · have v0 := val_ofNat (192 + c.toNat / 64) (by omega)
      have v1 := val_ofNat (128 + c.toNat % 64) (by omega)
      have hd := decodeRune_two (Fin.ofNat (192 + c.toNat / 64)) (Fin.ofNat (128 + c.toNat % 64))
        s (by omega) (by omega) (by omega) (by omega)
      rw [v0, v1] at hd
      have hn : (192 + c.toNat / 64 - 192) * 64 + (128 + c.toNat % 64 - 128) = c.toNat := by
        omega
      rw [hn, Char.ofNat_toNat] at hd
      simp only [h1, h2, if_true, if_false, List.cons_append, List.nil_append, decodeRunes, hd]
    · by_cases h3 : c.toNat < 65536
      · have v0 := val_ofNat (224 + c.toNat / 4096) (by omega)
        have v1 := val_ofNat (128 + c.toNat / 64 % 64) (by omega)
        have v2 := val_ofNat (128 + c.toNat % 64) (by omega)
        have hd := decodeRune_three (Fin.ofNat (224 + c.toNat / 4096))
          (Fin.ofNat (128 + c.toNat / 64 % 64)) (Fin.ofNat (128 + c.toNat % 64)) s
          (by omega) (by omega) (by rw [v0, v1]; split <;> omega)
          (by rw [v0, v1]; split <;> omega) (by omega) (by omega)
        rw [v0, v1, v2] at hd
        have hn : (224 + c.toNat / 4096 - 224) * 4096 + (128 + c.toNat / 64 % 64 - 128) * 64
            + (128 + c.toNat % 64 - 128) = c.toNat := by omega
        rw [hn, Char.ofNat_toNat] at hd
        simp only [h1, h2, h3, if_true, if_false, List.cons_append, List.nil_append, decodeRunes,
          hd]
      · have v0 := val_ofNat (240 + c.toNat / 262144) (by omega)
        have v1 := val_ofNat (128 + c.toNat / 4096 % 64) (by omega)
        have v2 := val_ofNat (128 + c.toNat / 64 % 64) (by omega)
        have v3 := val_ofNat (128 + c.toNat % 64) (by omega)
        have hd := decodeRune_four (Fin.ofNat (240 + c.toNat / 262144))
          (Fin.ofNat (128 + c.toNat / 4096 % 64)) (Fin.ofNat (128 + c.toNat / 64 % 64))
          (Fin.ofNat (128 + c.toNat % 64)) s
          (by omega) (by omega) (by rw [v0, v1]; split <;> omega)
          (by rw [v0, v1]; split <;> omega) (by omega) (by omega) (by omega) (by omega)
        rw [v0, v1, v2, v3] at hd
        have hn : (240 + c.toNat / 262144 - 240) * 262144
            + (128 + c.toNat / 4096 % 64 - 128) * 4096
            + (128 + c.toNat / 64 % 64 - 128) * 64 + (128 + c.toNat % 64 - 128) = c.toNat := by
          omega
        rw [hn, Char.ofNat_toNat] at hd
        simp only [h1, h2, h3, if_true, if_false, List.cons_append, List.nil_append, decodeRunes,
          hd]

theorem decodeRunes_encodeText (cs : List Char) (s : GoString) :
    decodeRunes 0 (encodeText cs ++ s) = cs.map some ++ decodeRunes 0 s := by
  induction cs with
  | nil => rfl
  | cons c cs ih =>
    rw [encodeText, List.append_assoc, decodeRunes_encodeRune, ih]
    rfl

/-- Every text is the text of its encoding. -/
theorem textOf_encodeText (cs : List Char) : textOf (encodeText cs) = cs := by
  have h := decodeRunes_encodeText cs []
  rw [List.append_nil] at h
  unfold textOf
  rw [h]
  simp [decodeRunes, Function.comp_def]

/-- The encoding of a text is valid UTF-8. -/
theorem toValidUTF8_encodeText (cs : List Char) :
    toValidUTF8 (encodeText cs) = encodeText cs := by
  unfold toValidUTF8
  rw [textOf_encodeText]

theorem encodeText_injective (a b : List Char) (h : encodeText a = encodeText b) : a = b := by
  rw [← textOf_encodeText a, ← textOf_encodeText b, h]

/-! ## Decimal digits -/

theorem toNat_digit (d : Nat) (h : d < 10) : (Char.ofNat (48 + d)).toNat = 48 + d := by
  interval_cases d <;> rfl

theorem isDigit_digit (d : Nat) (h : d < 10) : isDigit (Char.ofNat (48 + d)) = true := by
  interval_cases d <;> rfl

theorem digitsValue_append (ds : List Char) (c : Char) :
    digitsValue (ds ++ [c]) = digitsValue ds * 10 + (c.toNat - 48) := by
  simp [digitsValue, List.foldl_append]

theorem formatBits_spec : ∀ (fuel u : Nat) (acc : List Char), u < fuel →
    ∃ ds, formatBits fuel u acc = ds ++ acc ∧ IsDecimal ds u := by
  intro fuel
  induction fuel with
  | zero => intro u acc h; omega
  | succ fuel ih =>
    intro u acc h
    by_cases hu : 10 ≤ u
    · obtain ⟨ds, hds, hdec⟩ :=
        ih (u / 10) (Char.ofNat (48 + u % 10) :: acc) (by omega)
      refine ⟨ds ++ [Char.ofNat (48 + u % 10)], ?_, ?_, ?_, ?_, ?_⟩
      · simp [formatBits, hu, hds]
      · simp
      · have := hdec.digits
        simp only [List.all_eq_true] at this
        simp only [List.all_append, List.all_cons, List.all_nil, Bool.and_true, Bool.and_eq_true,
          List.all_eq_true, isDigit_digit (u % 10) (by omega), and_true]
        exact this
      · rw [digitsValue_append, hdec.value, toNat_digit _ (by omega)]
        omega
      · intro h0
        have hne := hdec.ne_nil
        cases ds with
        | nil => exact absurd rfl hne
        | cons d ds' =>
          have hz := hdec.zero (by simpa using h0)
          have hv := hdec.value
          rw [hz] at hv
          simp [digitsValue] at hv
          omega
    · refine ⟨[Char.ofNat (48 + u)], ?_, ?_, ?_, ?_, ?_⟩
      · simp [formatBits, hu]
      · simp
      · simp [isDigit_digit u (by omega)]
      · simp [digitsValue, toNat_digit u (by omega)]
      · intro h0
        have hu' : u < 10 := by omega
        interval_cases u <;> first | rfl | (exfalso; revert h0; decide)

theorem formatNat_spec (u : Nat) : IsDecimal (formatNat u) u := by
  obtain ⟨ds, hds, hdec⟩ := formatBits_spec (u + 1) u [] (by omega)
  have : formatNat u = ds := by simpa [formatNat] using hds
  rw [this]; exact hdec

/-! ## Scanning and converting the output of `Itoa` -/

theorem spanDigits_append (ds : List Char) (t : Char) (rest : List Char)
    (hds : ds.all isDigit = true) (ht : isDigit t = false) :
    spanDigits (ds ++ t :: rest) = (ds, t :: rest) := by
  induction ds with
  | nil => simp [spanDigits, ht]
  | cons d ds ih =>
    simp only [List.all_cons, Bool.and_eq_true] at hds
    simp [spanDigits, hds.1, ih hds.2]

theorem isDigit_of_isDelimiter {t : Char} (h : isDelimiter t) : isDigit t = false := by
  rcases h with rfl | rfl <;> rfl

theorem scanUnsigned_decimal (ds : List Char) (u : Nat) (t : Char) (rest : List Char)
    (hdec : IsDecimal ds u) (ht : isDelimiter t) :
    scanUnsigned (ds ++ t :: rest) = some (ds, t :: rest) := by
  have hfrac : scanFraction (t :: rest) = some ([], t :: rest) := by
    rcases ht with rfl | rfl <;> rfl
  have hexp : scanExponent (t :: rest) = some ([], t :: rest) := by
    rcases ht with rfl | rfl <;> simp [scanExponent]
  cases ds with
  | nil => exact absurd rfl hdec.ne_nil
  | cons d ds' =>
    have hall := hdec.digits
    simp only [List.all_cons, Bool.and_eq_true] at hall
    by_cases hd : d = '0'
    · have hz := hdec.zero (by simp [hd])
      simp only [List.cons.injEq] at hz
      obtain ⟨-, rfl⟩ := hz
      subst hd
      simp [scanUnsigned, scanIntPart, hfrac, hexp]
    · simp [scanUnsigned, scanIntPart, hd, hall.1,
        spanDigits_append ds' t rest hall.2 (isDigit_of_isDelimiter ht), hfrac, hexp]

theorem isDigit_ne_minus {c : Char} (h : isDigit c = true) : c ≠ '-' := by
  rintro rfl; revert h; decide

theorem scanNumber_itoa (i : Int) (t : Char) (rest : List Char) (ht : isDelimiter t) :
    scanNumber (itoaChars i ++ t :: rest) = some (itoaChars i, t :: rest) := by
  have hdec := formatNat_spec i.natAbs
  unfold itoaChars
  split
  · simp [scanNumber, scanUnsigned_decimal _ _ t rest hdec ht]
  · have h := scanUnsigned_decimal _ _ t rest hdec ht
    cases hf : formatNat i.natAbs with
    | nil => exact absurd hf hdec.ne_nil
    | cons d ds =>
      rw [hf] at h hdec
      have hall := hdec.digits
      simp only [List.all_cons, Bool.and_eq_true] at hall
      have hd := isDigit_ne_minus hall.1
      rw [List.cons_append, scanNumber]
      · exact h
      · intro cs hcs
        simp only [List.cons.injEq] at hcs
        exact hd hcs.1

/-- The first character of a decimal number is a sign or a digit. -/
theorem itoaChars_head (i : Int) :
    ∃ c cs, itoaChars i = c :: cs ∧ (c = '-' ∨ isDigit c = true) := by
  have hdec := formatNat_spec i.natAbs
  unfold itoaChars
  split
  · exact ⟨'-', _, rfl, Or.inl rfl⟩
  · cases hf : formatNat i.natAbs with
    | nil => exact absurd hf hdec.ne_nil
    | cons d ds =>
      rw [hf] at hdec
      have hall := hdec.digits
      simp only [List.all_cons, Bool.and_eq_true] at hall
      exact ⟨d, ds, rfl, Or.inr hall.1⟩

theorem parseValue_itoa (fuel : Nat) (i : Int) (t : Char) (rest : List Char)
    (ht : isDelimiter t) :
    parseValue (fuel + 1) (itoaChars i ++ t :: rest)
      = some (JValue.number (itoaChars i), t :: rest) := by
  have hscan := scanNumber_itoa i t rest ht
  obtain ⟨c, cs, hc, hhead⟩ := itoaChars_head i
  rw [hc] at hscan ⊢
  have h1 : c ≠ '\x7b' := by rcases hhead with rfl | h; decide; rintro rfl; revert h; decide
  have h2 : c ≠ '[' := by rcases hhead with rfl | h; decide; rintro rfl; revert h; decide
  have h3 : c ≠ '"' := by rcases hhead with rfl | h; decide; rintro rfl; revert h; decide
  have h4 : c ≠ 't' := by rcases hhead with rfl | h; decide; rintro rfl; revert h; decide
  have h5 : c ≠ 'f' := by rcases hhead with rfl | h; decide; rintro rfl; revert h; decide
  have h6 : c ≠ 'n' := by rcases hhead with rfl | h; decide; rintro rfl; revert h; decide
  rw [List.cons_append] at hscan ⊢
  simp [parseValue, h1, h2, h3, h4, h5, h6, hscan]

theorem parseInt_itoa (i : GoInt) : parseInt (itoaChars i.val) = some i := by
  have hdec := formatNat_spec i.val.natAbs
  unfold itoaChars
  split
  · rename_i hneg
    have hval : (-(digitsValue (formatNat i.val.natAbs) : Int)) = i.val := by
      rw [hdec.value]; omega
    simp [parseInt, hdec.ne_nil, hdec.digits, hval, toGoInt, i.property]
  · rename_i hpos
    cases hf : formatNat i.val.natAbs with
    | nil => exact absurd hf hdec.ne_nil
    | cons d ds =>
      rw [hf] at hdec
      have hall := hdec.digits
      have hall' := hall
      simp only [List.all_cons, Bool.and_eq_true] at hall'
      have hd := isDigit_ne_minus hall'.1
      have hval : ((digitsValue (d :: ds) : Nat) : Int) = i.val := by
        rw [hdec.value]; omega
      simp only [parseInt, hd, if_false, hall, if_true, hval, toGoInt, i.property]
      simp

theorem Itoa_injective (a b : GoInt) (h : Itoa a = Itoa b) : a = b := by
  have h' : itoaChars a.val = itoaChars b.val := encodeText_injective _ _ h
  have ha := parseInt_itoa a
  rw [h', parseInt_itoa b] at ha
  exact (Option.some.inj ha).symm

theorem Itoa_ne_empty (i : GoInt) : Itoa i ≠ lit "" := by
  obtain ⟨c, cs, hc, -⟩ := itoaChars_head i.val
  intro h
  have h' : itoaChars i.val = [] := encodeText_injective _ _ h
  rw [hc] at h'
  cases h'

/-! ## Scanning the output of the string encoder -/

theorem scanString_quote (rest : List Char) : scanString ('"' :: rest) = some ([], rest) := by
  rw [scanString.eq_def]; simp

theorem scanString_simple (e x : Char) (cs : List Char) (he : e ≠ 'u') (hx : simpleEscape e = some x) :
    scanString ('\\' :: e :: cs) = (scanString cs).map fun r => (StrItem.char x :: r.1, r.2) := by
  rw [scanString.eq_def]
  simp [he, hx]
  cases scanString cs <;> simp

theorem scanString_unit (a b c d : Char) (u : Nat) (cs : List Char) (hu : hex4 a b c d = some u) :
    scanString ('\\' :: 'u' :: a :: b :: c :: d :: cs)
      = (scanString cs).map fun r => (StrItem.unit u :: r.1, r.2) := by
  rw [scanString.eq_def]
  simp [hu]
  cases scanString cs <;> simp

theorem scanString_plain (c : Char) (cs : List Char) (h1 : c ≠ '"') (h2 : c ≠ '\\')
    (h3 : ¬ c.toNat < 32) :
    scanString (c :: cs) = (scanString cs).map fun r => (StrItem.char c :: r.1, r.2) := by
  rw [scanString.eq_def]
  simp [h1, h2, h3]
  cases scanString cs <;> simp

theorem hex4_hexDigit : ∀ n : Nat, n < 64 →
    hex4 '0' '0' (hexDigit (n / 16)) (hexDigit (n % 16)) = some n := by
  decide

theorem unquoteItems_unit_small (n : Nat) (h : n < 55296) (items : List StrItem) :
    unquoteItems none (StrItem.unit n :: items) = Char.ofNat n :: unquoteItems none items := by
  have h1 : isHighSurrogate n = false := by simp [isHighSurrogate]; omega
  have h2 : isLowSurrogate n = false := by simp [isLowSurrogate]; omega
  simp [unquoteItems, h1, h2]

theorem scanString_escapeChar (c : Char) (cs rest : List Char) (items : List StrItem)
    (text : List Char) (hscan : scanString (cs ++ '"' :: rest) = some (items, rest))
    (hunq : unquoteItems none items = text) :
    ∃ items', scanString (escapeChar c ++ (cs ++ '"' :: rest)) = some (items', rest)
      ∧ unquoteItems none items' = c :: text := by
  by_cases h1 : c = '"'
  · subst h1
    refine ⟨StrItem.char '"' :: items, ?_, ?_⟩
    · simp [escapeChar, scanString_simple '"' '"' _ (by decide) (by decide), hscan]
    · simp [unquoteItems, hunq]
  by_cases h2 : c = '\\'
  · subst h2
    refine ⟨StrItem.char '\\' :: items, ?_, ?_⟩
    · simp [escapeChar, scanString_simple '\\' '\\' _ (by decide) (by decide), hscan]
    · simp [unquoteItems, hunq]
  by_cases h3 : c = '\n'
  · subst h3
    refine ⟨StrItem.char '\n' :: items, ?_, ?_⟩
    · simp [escapeChar, scanString_simple 'n' '\n' _ (by decide) (by decide), hscan]
    · simp [unquoteItems, hunq]
  by_cases h4 : c = '\r'
  · subst h4
    refine ⟨StrItem.char '\r' :: items, ?_, ?_⟩
    · simp [escapeChar, scanString_simple 'r' '\r' _ (by decide) (by decide), hscan]
    · simp [unquoteItems, hunq]
  by_cases h5 : c = '\t'
  · subst h5
    refine ⟨StrItem.char '\t' :: items, ?_, ?_⟩
    · simp [escapeChar, scanString_simple 't' '\t' _ (by decide) (by decide), hscan]
    · simp [unquoteItems, hunq]
  by_cases h6 : c.toNat < 32 ∨ c = '<' ∨ c = '>' ∨ c = '&'
  · have hn : c.toNat < 64 := by
      rcases h6 with h | rfl | rfl | rfl
      · omega
      · decide
      · decide
      · decide
    refine ⟨StrItem.unit c.toNat :: items, ?_, ?_⟩
    · simp [escapeChar, h1, h2, h3, h4, h5, h6,
        scanString_unit _ _ _ _ _ _ (hex4_hexDigit c.toNat hn), hscan]
    · rw [unquoteItems_unit_small _ (by omega), hunq, Char.ofNat_toNat]
  by_cases h7 : c = Char.ofNat 8232
  · refine ⟨StrItem.unit 8232 :: items, ?_, ?_⟩
    · have hx : hex4 '2' '0' '2' '8' = some 8232 := by decide
      subst h7
      simp [escapeChar, scanString_unit _ _ _ _ _ _ hx, hscan]
    · rw [unquoteItems_unit_small _ (by omega), hunq, h7]
  by_cases h8 : c = Char.ofNat 8233
  · refine ⟨StrItem.unit 8233 :: items, ?_, ?_⟩
    · have hx : hex4 '2' '0' '2' '9' = some 8233 := by decide
      subst h8
      simp [escapeChar, scanString_unit _ _ _ _ _ _ hx, hscan]
    · rw [unquoteItems_unit_small _ (by omega), hunq, h8]
  · refine ⟨StrItem.char c :: items, ?_, ?_⟩
    · have h32 : ¬ c.toNat < 32 := fun h => h6 (Or.inl h)
      simp [escapeChar, h1, h2, h3, h4, h5, h6, h7, h8, scanString_plain c _ h1 h2 h32, hscan]
    · simp [unquoteItems, hunq]

theorem unquoteItems_replacement (items : List StrItem) :
    unquoteItems none (StrItem.unit 65533 :: items)
      = replacementChar :: unquoteItems none items := by
  have h1 : isHighSurrogate 65533 = false := by decide
  have h2 : isLowSurrogate 65533 = false := by decide
  simp [unquoteItems, h1, h2, replacementChar]

/-- Scanning and unquoting the escaped body of a string gives its text. -/
theorem scanString_escape (rs : List (Option Char)) (rest : List Char) :
    ∃ items, scanString (escapeRunes rs ++ '"' :: rest) = some (items, rest)
      ∧ unquoteItems none items = rs.map fun r => r.getD replacementChar := by
  induction rs with
  | nil => exact ⟨[], by simp [escapeRunes, scanString_quote], by simp [unquoteItems]⟩
  | cons r rs ih =>
    obtain ⟨items, hscan, hunq⟩ := ih
    cases r with
    | some c =>
      obtain ⟨items', h1, h2⟩ := scanString_escapeChar c _ rest items _ hscan hunq
      refine ⟨items', ?_, ?_⟩
      · simpa [escapeRunes, escapeRune] using h1
      · simpa using h2
    | none =>
      refine ⟨StrItem.unit 65533 :: items, ?_, ?_⟩
      · have hx : hex4 'f' 'f' 'f' 'd' = some 65533 := by decide
        simp [escapeRunes, escapeRune, scanString_unit _ _ _ _ _ _ hx, hscan]
      · rw [unquoteItems_replacement, hunq]
        rfl

theorem parseValue_quote (fuel : Nat) (s : GoString) (rest : List Char) :
    parseValue (fuel + 1) (quote s ++ rest) = some (JValue.string (textOf s), rest) := by
  obtain ⟨items, hscan, hunq⟩ := scanString_escape (decodeRunes 0 s) rest
  have : quote s ++ rest = '"' :: (escapeRunes (decodeRunes 0 s) ++ '"' :: rest) := by
    simp [quote]
  rw [this]
  simp [parseValue, hscan, hunq, textOf]

theorem parseValue_bool (fuel : Nat) (b : Bool) (rest : List Char) :
    parseValue (fuel + 1) (boolChars b ++ rest) = some (JValue.bool b, rest) := by
  cases b <;> simp [boolChars, parseValue, dropWord]

/-! ## Parsing and decoding the encoded record -/

theorem skipSpace_cons (c : Char) (cs : List Char) (h : isSpace c = false) :
    skipSpace (c :: cs) = c :: cs := by
  simp [skipSpace, h]

theorem skipSpace_quote (s : GoString) (rest : List Char) :
    skipSpace (quote s ++ rest) = quote s ++ rest := by
  simp only [quote, List.cons_append]
  exact skipSpace_cons _ _ (by decide)

theorem skipSpace_itoa (i : Int) (rest : List Char) :
    skipSpace (itoaChars i ++ rest) = itoaChars i ++ rest := by
  obtain ⟨c, cs, hc, hhead⟩ := itoaChars_head i
  rw [hc, List.cons_append]
  apply skipSpace_cons
  rcases hhead with rfl | h
  · decide
  · cases hs : isSpace c with
    | false => rfl
    | true =>
      exfalso
      simp only [isSpace, decide_eq_true_eq] at hs
      rcases hs with rfl | rfl | rfl | rfl <;> revert h <;> decide

theorem skipSpace_bool (b : Bool) (rest : List Char) :
    skipSpace (boolChars b ++ rest) = boolChars b ++ rest := by
  cases b <;> exact skipSpace_cons _ _ (by decide)

/-- A member that is followed by another member. -/
theorem parseMembers_more (fuel : Nat) (name : String) (text : List Char) (v : JValue)
    (rest : List Char) (hname : escapeRunes (name.data.map some) = name.data)
    (hv : parseValue fuel (skipSpace (text ++ ',' :: '"' :: rest))
      = some (v, ',' :: '"' :: rest)) :
    parseMembers (fuel + 1) (fieldChars name text ++ ',' :: '"' :: rest)
      = (parseMembers fuel ('"' :: rest)).map fun r => ((name.data, v) :: r.1, r.2) := by
  obtain ⟨items, hscan, hunq⟩ :=
    scanString_escape (name.data.map some) (':' :: (text ++ ',' :: '"' :: rest))
  rw [hname] at hscan
  have hkey : unquoteItems none items = name.data := by
    rw [hunq]; simp [Function.comp_def]
  have hshape : fieldChars name text ++ ',' :: '"' :: rest
      = '"' :: (name.data ++ '"' :: ':' :: (text ++ ',' :: '"' :: rest)) := by
    simp [fieldChars]
  rw [hshape, parseMembers]
  simp [hscan, skipSpace_cons ':' _ (by decide), hv, skipSpace_cons ',' _ (by decide),
    skipSpace_cons '"' _ (by decide), hkey]

/-- The last member of an object. -/
theorem parseMembers_last (fuel : Nat) (name : String) (text : List Char) (v : JValue)
    (rest : List Char) (hname : escapeRunes (name.data.map some) = name.data)
    (hv : parseValue fuel (skipSpace (text ++ '\x7d' :: rest)) = some (v, '\x7d' :: rest)) :
    parseMembers (fuel + 1) (fieldChars name text ++ '\x7d' :: rest)
      = some ([(name.data, v)], rest) := by
  obtain ⟨items, hscan, hunq⟩ :=
    scanString_escape (name.data.map some) (':' :: (text ++ '\x7d' :: rest))
  rw [hname] at hscan
  have hkey : unquoteItems none items = name.data := by
    rw [hunq]; simp [Function.comp_def]
  have hshape : fieldChars name text ++ '\x7d' :: rest
      = '"' :: (name.data ++ '"' :: ':' :: (text ++ '\x7d' :: rest)) := by
    simp [fieldChars]
  rw [hshape, parseMembers]
  simp [hscan, skipSpace_cons ':' _ (by decide), hv, skipSpace_cons '\x7d' _ (by decide), hkey]

theorem fieldChars_cons (name : String) (text : List Char) :
    fieldChars name text = '"' :: (name.data ++ '"' :: ':' :: text) := rfl

/-- A member followed by the next field of the record. -/
theorem parseMembers_next (fuel : Nat) (name next : String) (text nextText : List Char)
    (v : JValue) (rest : List Char) (hname : escapeRunes (name.data.map some) = name.data)
    (hv : parseValue fuel (skipSpace (text ++ ',' :: (fieldChars next nextText ++ rest)))
      = some (v, ',' :: (fieldChars next nextText ++ rest))) :
    parseMembers (fuel + 1) (fieldChars name text ++ ',' :: (fieldChars next nextText ++ rest))
      = (parseMembers fuel (fieldChars next nextText ++ rest)).map
          fun r => ((name.data, v) :: r.1, r.2) :=
  parseMembers_more fuel name text v _ hname hv

theorem parseValue_object (fuel : Nat) (name : String) (text rest : List Char) :
    parseValue (fuel + 1) ('\x7b' :: (fieldChars name text ++ rest))
      = (parseMembers fuel (fieldChars name text ++ rest)).map
          fun r => (JValue.object r.1, r.2) := by
  rw [parseValue]
  simp [fieldChars, skipSpace_cons '"' _ (by decide)]

theorem value_quote (fuel : Nat) (s : GoString) (rest : List Char) :
    parseValue (fuel + 1) (skipSpace (quote s ++ rest))
      = some (JValue.string (textOf s), rest) := by
  rw [skipSpace_quote, parseValue_quote]

theorem value_itoa (fuel : Nat) (i : Int) (t : Char) (rest : List Char) (ht : isDelimiter t) :
    parseValue (fuel + 1) (skipSpace (itoaChars i ++ t :: rest))
      = some (JValue.number (itoaChars i), t :: rest) := by
  rw [skipSpace_itoa, parseValue_itoa _ _ _ _ ht]

theorem value_bool (fuel : Nat) (b : Bool) (rest : List Char) :
    parseValue (fuel + 1) (skipSpace (boolChars b ++ rest)) = some (JValue.bool b, rest) := by
  rw [skipSpace_bool, parseValue_bool]

theorem parseValue_marshalChars (n : Nat) (p : Person) :
    parseValue (n + 9) (marshalChars p) = some (personValue p, []) := by
  unfold marshalChars
  rw [parseValue_object,
    parseMembers_next (n + 7) "name" "age" _ _ _ _ (by decide) (value_quote _ _ _),
    parseMembers_next (n + 6) "age" "idType" _ _ _ _ (by decide)
      (value_itoa _ _ _ _ (Or.inl rfl)),
    parseMembers_next (n + 5) "idType" "idNo" _ _ _ _ (by decide) (value_quote _ _ _),
    parseMembers_next (n + 4) "idNo" "address" _ _ _ _ (by decide)
      (value_itoa _ _ _ _ (Or.inl rfl)),
    parseMembers_next (n + 3) "address" "isEmployed" _ _ _ _ (by decide) (value_quote _ _ _),
    parseMembers_next (n + 2) "isEmployed" "isMarried" _ _ _ _ (by decide)
      (value_bool _ _ _),
    parseMembers_last (n + 1) "isMarried" _ _ _ (by decide) (value_bool _ _ _)]
  rfl

theorem skipSpace_marshalChars (p : Person) : skipSpace (marshalChars p) = marshalChars p :=
  skipSpace_cons _ _ (by decide)

theorem length_marshalChars (p : Person) : 8 ≤ (marshalChars p).length := by
  simp [marshalChars, fieldChars]

theorem parseJSON_marshalChars (p : Person) : parseJSON (marshalChars p) = some (personValue p) := by
  obtain ⟨n, hn⟩ : ∃ n, (marshalChars p).length + 1 = n + 9 :=
    ⟨(marshalChars p).length - 8, by have := length_marshalChars p; omega⟩
  unfold parseJSON
  rw [skipSpace_marshalChars, hn, parseValue_marshalChars]
  rfl

theorem decodeMembers_personValue (init p : Person) :
    decodeMembers init
      [("name".data, JValue.string (textOf p.Name)),
       ("age".data, JValue.number (itoaChars p.Age.val)),
       ("idType".data, JValue.string (textOf p.IdType)),
       ("idNo".data, JValue.number (itoaChars p.IdNo.val)),
       ("address".data, JValue.string (textOf p.Address)),
       ("isEmployed".data, JValue.bool p.IsEmployed),
       ("isMarried".data, JValue.bool p.IsMarried)] = some (coerce p) := by
  have k1 : keyMatches "name".data "name" = true := by decide
  have k2 : keyMatches "age".data "name" = false := by decide
  have k3 : keyMatches "age".data "age" = true := by decide
  have k4 : keyMatches "idType".data "name" = false := by decide
  have k5 : keyMatches "idType".data "age" = false := by decide
  have k6 : keyMatches "idType".data "idType" = true := by decide
  have k7 : keyMatches "idNo".data "name" = false := by decide
  have k8 : keyMatches "idNo".data "age" = false := by decide
  have k9 : keyMatches "idNo".data "idType" = false := by decide
  have k10 : keyMatches "idNo".data "idNo" = true := by decide
  have k11 : keyMatches "address".data "name" = false := by decide
  have k12 : keyMatches "address".data "age" = false := by decide
  have k13 : keyMatches "address".data "idType" = false := by decide
  have k14 : keyMatches "address".data "idNo" = false := by decide
  have k15 : keyMatches "address".data "address" = true := by decide
  have k16 : keyMatches "isEmployed".data "name" = false := by decide
  have k17 : keyMatches "isEmployed".data "age" = false := by decide
  have k18 : keyMatches "isEmployed".data "idType" = false := by decide
  have k19 : keyMatches "isEmployed".data "idNo" = false := by decide
  have k20 : keyMatches "isEmployed".data "address" = false := by decide
  have k21 : keyMatches "isEmployed".data "isEmployed" = true := by decide
  have k22 : keyMatches "isMarried".data "name" = false := by decide
  have k23 : keyMatches "isMarried".data "age" = false := by decide
  have k24 : keyMatches "isMarried".data "idType" = false := by decide
  have k25 : keyMatches "isMarried".data "idNo" = false := by decide
  have k26 : keyMatches "isMarried".data "address" = false := by decide
  have k27 : keyMatches "isMarried".data "isEmployed" = false := by decide
  have k28 : keyMatches "isMarried".data "isMarried" = true := by decide
  simp only [decodeMembers, setField, storeString, storeInt, storeBool, k1, k2, k3, k4, k5, k6,
    k7, k8, k9, k10, k11, k12, k13, k14, k15, k16, k17, k18, k19, k20, k21, k22, k23, k24, k25,
    k26, k27, k28, if_true, parseInt_itoa, Option.map_some', Bool.false_eq_true, if_false,
    coerce, toValidUTF8]

/-- Decoding what `json.Marshal` wrote gives the record with its strings coerced to
valid UTF-8, whatever the target held before. -/
theorem jsonUnmarshal_marshal (p init : Person) :
    jsonUnmarshal (encodeText (marshalChars p)) init = .ok (coerce p) := by
  have h1 : parseJSON (textOf (encodeText (marshalChars p))) = some (personValue p) := by
    rw [textOf_encodeText]
    exact parseJSON_marshalChars p
  unfold jsonUnmarshal
  rw [h1]
  unfold personValue
  dsimp only
  rw [decodeMembers_personValue]

/-- A record with valid strings is its own coercion. -/
theorem coerce_of_wellFormed (p : Person) (h : WellFormed p) : coerce p = p := by
  obtain ⟨h1, h2, h3⟩ := h
  unfold ValidUTF8 at h1 h2 h3
  cases p
  simp_all [coerce]

theorem validUTF8_encodeText (cs : List Char) : ValidUTF8 (encodeText cs) :=
  toValidUTF8_encodeText cs

theorem wellFormed_coerce (p : Person) : WellFormed (coerce p) :=
  ⟨validUTF8_encodeText _, validUTF8_encodeText _, validUTF8_encodeText _⟩

theorem wellFormed_zero : WellFormed Person.zero := ⟨rfl, rfl, rfl⟩

theorem storeString_valid (v : JValue) (cur s : GoString) (hcur : ValidUTF8 cur)
    (h : storeString v cur = some s) : ValidUTF8 s := by
  unfold storeString at h
  split at h
  · cases h; exact hcur
  · cases h; exact validUTF8_encodeText _
  · cases h

theorem setField_wellFormed (p q : Person) (key : List Char) (v : JValue)
    (hp : WellFormed p) (h : setField p key v = some q) : WellFormed q := by
  obtain ⟨h1, h2, h3⟩ := hp
  unfold setField at h
  split at h
  · cases hs : storeString v p.Name with
    | none => rw [hs] at h; cases h
    | some x => rw [hs] at h; cases h; exact ⟨storeString_valid _ _ _ h1 hs, h2, h3⟩
  · split at h
    · cases hs : storeInt v p.Age with
      | none => rw [hs] at h; cases h
      | some x => rw [hs] at h; cases h; exact ⟨h1, h2, h3⟩
    · split at h
      · cases hs : storeString v p.IdType with
        | none => rw [hs] at h; cases h
        | some x => rw [hs] at h; cases h; exact ⟨h1, storeString_valid _ _ _ h2 hs, h3⟩
      · split at h
        · cases hs : storeInt v p.IdNo with
          | none => rw [hs] at h; cases h
          | some x => rw [hs] at h; cases h; exact ⟨h1, h2, h3⟩
        · split at h
          · cases hs : storeString v p.Address with
            | none => rw [hs] at h; cases h
            | some x => rw [hs] at h; cases h; exact ⟨h1, h2, storeString_valid _ _ _ h3 hs⟩
          · split at h
            · cases hs : storeBool v p.IsEmployed with
              | none => rw [hs] at h; cases h
              | some x => rw [hs] at h; cases h; exact ⟨h1, h2, h3⟩
            · split at h
              · cases hs : storeBool v p.IsMarried with
                | none => rw [hs] at h; cases h
                | some x => rw [hs] at h; cases h; exact ⟨h1, h2, h3⟩
              · cases h; exact ⟨h1, h2, h3⟩

theorem decodeMembers_wellFormed (members : List (List Char × JValue)) :
    ∀ (p q : Person), WellFormed p → decodeMembers p members = some q → WellFormed q := by
  induction members with
  | nil => intro p q hp h; simp [decodeMembers] at h; rw [← h]; exact hp
  | cons m rest ih =>
    intro p q hp h
    obtain ⟨key, v⟩ := m
    simp only [decodeMembers] at h
    cases hs : setField p key v with
    | none => rw [hs] at h; cases h
    | some r =>
      rw [hs] at h
      exact ih r q (setField_wellFormed p r key v hp hs) h

/-- Every record that `json.Unmarshal` produces from the zero record has valid
strings. -/
theorem jsonUnmarshal_wellFormed (data : GoString) (p : Person)
    (h : jsonUnmarshal data Person.zero = .ok p) : WellFormed p := by
  unfold jsonUnmarshal at h
  split at h
  · cases h
  · cases h; exact wellFormed_zero
  · rename_i members _
    split at h
    · rename_i q hq
      cases h
      exact decodeMembers_wellFormed members _ _ wellFormed_zero hq
    · cases h
  · cases h

/-! ## The bound on nested calls is always enough -/

theorem skipSpace_length (cs : List Char) : (skipSpace cs).length ≤ cs.length := by
  induction cs with
  | nil => simp [skipSpace]
  | cons c cs ih =>
    unfold skipSpace
    split
    · exact Nat.le_succ_of_le ih
    · exact Nat.le_refl _

theorem scanString_length_aux : ∀ (n : Nat) (cs : List Char), cs.length ≤ n →
    ∀ (items : List StrItem) (rest : List Char),
    scanString cs = some (items, rest) → rest.length < cs.length := by
  intro n
  induction n with
  | zero =>
    intro cs hn items rest h
    have : cs = [] := List.length_eq_zero.mp (Nat.le_zero.mp hn)
    subst this
    simp [scanString] at h
  | succ n ih =>
    intro cs hn items rest h
    rw [scanString.eq_def] at h
    cases cs with
    | nil => simp at h
    | cons c cs =>
      simp only at h
      split at h
      · cases h; simp
      · split at h
        · split at h
          · cases h
          · rename_i e es
            split at h
            · split at h
              · rename_i a b c' d rest'
                split at h
                · rename_i u items' tail hu hs
                  cases h
                  have := ih rest' (by simp at hn ⊢; omega) _ _ hs
                  simp at this ⊢; omega
                · cases h
              · cases h
            · split at h
              · rename_i x items' tail hx hs
                cases h
                have := ih es (by simp at hn ⊢; omega) _ _ hs
                simp at this ⊢; omega
              · cases h
        · split at h
          · cases h
          · split at h
            · rename_i items' tail hs
              cases h
              have := ih cs (by simp at hn ⊢; omega) _ _ hs
              simp at this ⊢; omega
            · cases h

theorem scanString_length (cs : List Char) (items : List StrItem) (rest : List Char)
    (h : scanString cs = some (items, rest)) : rest.length < cs.length :=
  scanString_length_aux cs.length cs (Nat.le_refl _) items rest h

theorem dropWord_length : ∀ (word cs rest : List Char),
    dropWord word cs = some rest → rest.length ≤ cs.length := by
  intro word
  induction word with
  | nil => intro cs rest h; simp [dropWord] at h; rw [h]
  | cons w ws ih =>
    intro cs rest h
    cases cs with
    | nil => simp [dropWord] at h
    | cons c cs =>
      simp only [dropWord] at h
      split at h
      · exact Nat.le_succ_of_le (ih cs rest h)
      · cases h

theorem spanDigits_length (cs : List Char) : (spanDigits cs).2.length ≤ cs.length := by
  induction cs with
  | nil => simp [spanDigits]
  | cons c cs ih =>
    unfold spanDigits
    split
    · exact Nat.le_succ_of_le ih
    · exact Nat.le_refl _

theorem scanIntPart_length (cs lit rest : List Char) (h : scanIntPart cs = some (lit, rest)) :
    rest.length < cs.length := by
  cases cs with
  | nil => simp [scanIntPart] at h
  | cons c cs =>
    simp only [scanIntPart] at h
    split at h
    · cases h; simp
    · split at h
      · cases h
        have := spanDigits_length cs
        simp; omega
      · cases h

theorem scanFraction_length (cs lit rest : List Char) (h : scanFraction cs = some (lit, rest)) :
    rest.length ≤ cs.length := by
  unfold scanFraction at h
  split at h
  · rename_i cs'
    have hlen := spanDigits_length cs'
    split at h
    · cases h
    · rename_i ds r _ hsp
      cases h
      rw [hsp] at hlen
      simp at hlen ⊢; omega
  · cases h; exact Nat.le_refl _

theorem scanExponent_length (cs lit rest : List Char) (h : scanExponent cs = some (lit, rest)) :
    rest.length ≤ cs.length := by
  cases cs with
  | nil => simp [scanExponent] at h; rw [h.2]
  | cons c cs =>
    simp only [scanExponent] at h
    split at h
    · split at h
      · cases h
      · rename_i s ss
        split at h
        · have hlen := spanDigits_length ss
          split at h
          · cases h
          · rename_i ds r _ hsp
            cases h
            rw [hsp] at hlen
            simp at hlen ⊢; omega
        · have hlen := spanDigits_length (s :: ss)
          split at h
          · cases h
          · rename_i ds r _ hsp
            cases h
            rw [hsp] at hlen
            simp at hlen ⊢; omega
    · cases h; exact Nat.le_refl _

theorem scanUnsigned_length (cs lit rest : List Char) (h : scanUnsigned cs = some (lit, rest)) :
    rest.length < cs.length := by
  unfold scanUnsigned at h
  split at h
  · cases h
  · rename_i ip r1 h1
    split at h
    · cases h
    · rename_i fp r2 h2
      split at h
      · cases h
      · rename_i ep r3 h3
        cases h
        have := scanIntPart_length _ _ _ h1
        have := scanFraction_length _ _ _ h2
        have := scanExponent_length _ _ _ h3
        omega

theorem scanNumber_length (cs lit rest : List Char) (h : scanNumber cs = some (lit, rest)) :
    rest.length < cs.length := by
  unfold scanNumber at h
  split at h
  · rename_i cs'
    split at h
    · rename_i lit' rest' hs
      cases h
      have := scanUnsigned_length _ _ _ hs
      simp; omega
    · cases h
  · exact scanUnsigned_length _ _ _ h

theorem parse_adequate (n : Nat) : Adequate n := by
  induction n with
  | zero =>
    refine ⟨?_, ?_, ?_⟩ <;> intro cs x rest h
    · simp [parseValue] at h
    · simp [parseMembers] at h
    · simp [parseItems] at h
  | succ n ih =>
    obtain ⟨ihv, ihm, ihi⟩ := ih
    refine ⟨?_, ?_, ?_⟩
    · intro cs v rest h
      cases cs with
      | nil => simp [parseValue] at h
      | cons c cs =>
        have h0 := h
        rw [parseValue] at h
        split at h
        · -- object
          rename_i hc
          split at h
          · rename_i rest' heq
            cases h
            have hl := skipSpace_length cs
            rw [heq] at hl
            simp only [List.length_cons] at hl ⊢
            refine ⟨by omega, ?_⟩
            intro k hk
            obtain ⟨k', rfl⟩ : ∃ k', k = k' + 1 := ⟨k - 1, by omega⟩
            rw [parseValue]
            simp only [hc, if_true, heq]
          · rename_i rest' hne
            cases hm : parseMembers n (skipSpace cs) with
            | none => rw [hm] at h; cases h
            | some r =>
              obtain ⟨ms, r'⟩ := r
              rw [hm] at h
              cases h
              obtain ⟨hlt, hfuel⟩ := ihm _ _ _ hm
              have hl := skipSpace_length cs
              simp only [List.length_cons]
              refine ⟨by omega, ?_⟩
              intro k hk
              obtain ⟨k', rfl⟩ : ∃ k', k = k' + 1 := ⟨k - 1, by omega⟩
              rw [parseValue]
              simp only [hc, if_true]
              rw [hfuel k' (by omega)]
              rfl
        · rename_i hc
          split at h
          · -- array
            rename_i hb
            split at h
            · rename_i rest' heq
              cases h
              have hl := skipSpace_length cs
              rw [heq] at hl
              simp only [List.length_cons] at hl ⊢
              refine ⟨by omega, ?_⟩
              intro k hk
              obtain ⟨k', rfl⟩ : ∃ k', k = k' + 1 := ⟨k - 1, by omega⟩
              rw [parseValue, if_neg hc, if_pos hb]
              simp only [heq]
            · rename_i rest' hne
              cases hm : parseItems n (skipSpace cs) with
              | none => rw [hm] at h; cases h
              | some r =>
                obtain ⟨vs, r'⟩ := r
                rw [hm] at h
                cases h
                obtain ⟨hlt, hfuel⟩ := ihi _ _ _ hm
                have hl := skipSpace_length cs
                simp only [List.length_cons]
                refine ⟨by omega, ?_⟩
                intro k hk
                obtain ⟨k', rfl⟩ : ∃ k', k = k' + 1 := ⟨k - 1, by omega⟩
                rw [parseValue, if_neg hc, if_pos hb]
                split
                · rename_i rest'' heq
                  exact absurd heq (hne rest'')
                · rw [hfuel k' (by omega)]
                  rfl
          · -- scalars do not depend on the bound
            rename_i hb
            have hscalar : ∀ k, parseValue (k + 1) (c :: cs) = parseValue (n + 1) (c :: cs) := by
              intro k
              rw [parseValue, parseValue, if_neg hc, if_neg hb, if_neg hc, if_neg hb]
            have hlen : rest.length < (c :: cs).length := by
              split at h
              · cases hs : scanString cs with
                | none => rw [hs] at h; cases h
                | some r =>
                  obtain ⟨items, r'⟩ := r
                  rw [hs] at h
                  cases h
                  have := scanString_length _ _ _ hs
                  simp only [List.length_cons]; omega
              · split at h
                · cases hs : dropWord "rue".data cs with
                  | none => rw [hs] at h; cases h
                  | some r =>
                    rw [hs] at h
                    cases h
                    have := dropWord_length _ _ _ hs
                    simp only [List.length_cons]; omega
                · split at h
                  · cases hs : dropWord "alse".data cs with
                    | none => rw [hs] at h; cases h
                    | some r =>
                      rw [hs] at h
                      cases h
                      have := dropWord_length _ _ _ hs
                      simp only [List.length_cons]; omega
                  · split at h
                    · cases hs : dropWord "ull".data cs with
                      | none => rw [hs] at h; cases h
                      | some r =>
                        rw [hs] at h
                        cases h
                        have := dropWord_length _ _ _ hs
                        simp only [List.length_cons]; omega
                    · cases hs : scanNumber (c :: cs) with
                      | none => rw [hs] at h; cases h
                      | some r =>
                        obtain ⟨lit, r'⟩ := r
                        rw [hs] at h
                        cases h
                        exact scanNumber_length _ _ _ hs
            refine ⟨hlen, ?_⟩
            intro k hk
            obtain ⟨k', rfl⟩ : ∃ k', k = k' + 1 := ⟨k - 1, by omega⟩
            rw [hscalar k']
            exact h0
    · intro cs ms rest h
      cases cs with
      | nil => simp [parseMembers] at h
      | cons c cs =>
        rw [parseMembers] at h
        split at h
        · rename_i hc
          split at h
          · cases h
          · rename_i key r1 hs
            have hl1 := scanString_length _ _ _ hs
            split at h
            · rename_i r2 heq1
              have hl2 := skipSpace_length r1
              rw [heq1] at hl2
              have hl3 := skipSpace_length r2
              split at h
              · cases h
              · rename_i v r3 hv
                obtain ⟨hlv, hfv⟩ := ihv _ _ _ hv
                have hl4 := skipSpace_length r3
                split at h
                · rename_i r4 heq2
                  rw [heq2] at hl4
                  have hl5 := skipSpace_length r4
                  cases hm : parseMembers n (skipSpace r4) with
                  | none => rw [hm] at h; cases h
                  | some r =>
                    obtain ⟨ms', r'⟩ := r
                    rw [hm] at h
                    cases h
                    obtain ⟨hlm, hfm⟩ := ihm _ _ _ hm
                    simp only [List.length_cons] at hl2 hl4 ⊢
                    refine ⟨by omega, ?_⟩
                    intro k hk
                    obtain ⟨k', rfl⟩ : ∃ k', k = k' + 1 := ⟨k - 1, by omega⟩
                    rw [parseMembers, if_pos hc]
                    simp only [hs, heq1, hfv k' (by omega), heq2, hfm k' (by omega)]
                    rfl
                · rename_i r4 heq2
                  rw [heq2] at hl4
                  cases h
                  simp only [List.length_cons] at hl2 hl4 ⊢
                  refine ⟨by omega, ?_⟩
                  intro k hk
                  obtain ⟨k', rfl⟩ : ∃ k', k = k' + 1 := ⟨k - 1, by omega⟩
                  rw [parseMembers, if_pos hc]
                  simp only [hs, heq1, hfv k' (by omega), heq2]
                · cases h
            · cases h
        · cases h
    · intro cs vs rest h
      rw [parseItems] at h
      split at h
      · cases h
      · rename_i v r1 hv
        obtain ⟨hlv, hfv⟩ := ihv _ _ _ hv
        have hl1 := skipSpace_length r1
        split at h
        · rename_i r2 heq
          rw [heq] at hl1
          have hl2 := skipSpace_length r2
          cases hm : parseItems n (skipSpace r2) with
          | none => rw [hm] at h; cases h
          | some r =>
            obtain ⟨vs', r'⟩ := r
            rw [hm] at h
            cases h
            obtain ⟨hli, hfi⟩ := ihi _ _ _ hm
            simp only [List.length_cons] at hl1
            dsimp only
            refine ⟨by omega, ?_⟩
            intro k hk
            obtain ⟨k', rfl⟩ : ∃ k', k = k' + 1 := ⟨k - 1, by omega⟩
            rw [parseItems]
            simp only [hfv k' (by omega), heq, hfi k' (by omega)]
            rfl
        · rename_i r2 heq
          rw [heq] at hl1
          cases h
          simp only [List.length_cons] at hl1
          refine ⟨by omega, ?_⟩
          intro k hk
          obtain ⟨k', rfl⟩ : ∃ k', k = k' + 1 := ⟨k - 1, by omega⟩
          rw [parseItems]
          simp only [hfv k' (by omega), heq]
        · cases h

/-- Whenever some bound lets `parseValue` succeed, the bound used by `parseJSON`
gives the same result: no text is rejected for lack of nested calls. -/
theorem parseValue_bound (n : Nat) (cs : List Char) (v : JValue) (rest : List Char)
    (h : parseValue n cs = some (v, rest)) (m : Nat) (hm : cs.length ≤ m) :
    parseValue (m + 1) cs = some (v, rest) :=
  ((parse_adequate n).1 cs v rest h).2 (m + 1) (by omega)

/-- The result of `parseJSON` is the value that `parseValue` finds with any
sufficient bound. -/
theorem parseJSON_of_parseValue (n : Nat) (cs : List Char) (v : JValue) (rest : List Char)
    (h : parseValue n (skipSpace cs) = some (v, rest)) (hrest : skipSpace rest = []) :
    parseJSON cs = some v := by
  unfold parseJSON
  rw [parseValue_bound n _ v rest h cs.length (skipSpace_length cs)]
  simp [hrest]

/-! ## The world state as a finite map -/

theorem get_put_same (w : World) (key value : GoString) :
    (w.put key value).get key = some value := by
  induction w with
  | nil => simp [World.put, World.get]
  | cons kv rest ih =>
    unfold World.put
    split
    · simp [World.get]
    · rename_i hne
      split
      · simp [World.get]
      · simp [World.get, hne, ih]

theorem get_put_other (w : World) (key value other : GoString) (h : other ≠ key) :
    (w.put key value).get other = w.get other := by
  induction w with
  | nil => simp [World.put, World.get, Ne.symm h]
  | cons kv rest ih =>
    unfold World.put
    split
    · rename_i heq
      have : kv.Key ≠ other := by rw [heq]; exact Ne.symm h
      simp [World.get, Ne.symm h, this]
    · split
      · simp [World.get, Ne.symm h]
      · simp [World.get, ih]

theorem get_del_same (w : World) (key : GoString) : (w.del key).get key = none := by
  induction w with
  | nil => rfl
  | cons kv rest ih =>
    by_cases hk : kv.Key = key
    · simpa [World.del, List.filter_cons, hk] using ih
    · have : (World.del (kv :: rest) key) = kv :: World.del rest key := by
        simp [World.del, List.filter_cons, hk]
      rw [this]
      simp [World.get, hk, ih]

theorem get_del_other (w : World) (key other : GoString) (h : other ≠ key) :
    (w.del key).get other = w.get other := by
  induction w with
  | nil => rfl
  | cons kv rest ih =>
    by_cases hk : kv.Key = key
    · have hne : kv.Key ≠ other := by rw [hk]; exact Ne.symm h
      have : (World.del (kv :: rest) key) = World.del rest key := by
        simp [World.del, List.filter_cons, hk]
      rw [this, ih]
      simp [World.get, hne]
    · have : (World.del (kv :: rest) key) = kv :: World.del rest key := by
        simp [World.del, List.filter_cons, hk]
      rw [this]
      simp [World.get, ih]

theorem mem_of_get (w : World) (key value : GoString) (h : w.get key = some value) :
    ({ Key := key, Value := value } : KV) ∈ w := by
  induction w with
  | nil => simp [World.get] at h
  | cons kv rest ih =>
    unfold World.get at h
    split at h
    · rename_i hk
      have hv : kv.Value = value := Option.some.inj h
      have : kv = { Key := key, Value := value } := by
        cases kv; simp_all
      rw [this]; exact List.mem_cons_self _ _
    · exact List.mem_cons_of_mem _ (ih h)

theorem mem_put (w : World) (key value : GoString) (kv : KV) (h : kv ∈ w.put key value) :
    kv = { Key := key, Value := value } ∨ kv ∈ w := by
  induction w with
  | nil => simpa [World.put] using h
  | cons x rest ih =>
    unfold World.put at h
    split at h
    · rcases List.mem_cons.mp h with h | h
      · exact Or.inl h
      · exact Or.inr (List.mem_cons_of_mem _ h)
    · split at h
      · rcases List.mem_cons.mp h with h | h
        · exact Or.inl h
        · exact Or.inr h
      · rcases List.mem_cons.mp h with h | h
        · exact Or.inr (h ▸ List.mem_cons_self _ _)
        · rcases ih h with h | h
          · exact Or.inl h
          · exact Or.inr (List.mem_cons_of_mem _ h)

theorem mem_del (w : World) (key : GoString) (kv : KV) (h : kv ∈ w.del key) : kv ∈ w :=
  List.mem_of_mem_filter h

/-! ## Outcomes of the single methods -/

/-- The result of `GetById` when the read goes through: the outcome is decided by the stored
value. -/
theorem GetById_of_read (f : Faults) (w : World) (idNo : GoInt)
    (hread : f.getState (Itoa idNo) = none) :
    GetById f w idNo =
      match w.get (Itoa idNo) with
      | none => .error (notFound idNo)
      | some value => jsonUnmarshal value Person.zero := by
  unfold GetById GetState
  rw [if_neg (Itoa_ne_empty idNo), hread]
  cases hget : w.get (Itoa idNo) with
  | none => rfl
  | some value =>
    dsimp only
    cases jsonUnmarshal value Person.zero <;> rfl

/-- A successful `GetById` has read a stored value that decodes to its result. -/
theorem GetById_ok (f : Faults) (w : World) (idNo : GoInt) (p : Person)
    (h : GetById f w idNo = .ok p) :
    f.getState (Itoa idNo) = none ∧
      ∃ value, w.get (Itoa idNo) = some value ∧ jsonUnmarshal value Person.zero = .ok p := by
  cases hread : f.getState (Itoa idNo) with
  | some err =>
    exfalso
    unfold GetById GetState at h
    rw [if_neg (Itoa_ne_empty idNo), hread] at h
    cases h
  | none =>
    refine ⟨rfl, ?_⟩
    rw [GetById_of_read f w idNo hread] at h
    cases hget : w.get (Itoa idNo) with
    | none => rw [hget] at h; cases h
    | some value => rw [hget] at h; exact ⟨value, rfl, h⟩

/-- A successful `PutState` wrote the pair. -/
theorem PutState_ok (f : Faults) (w w' : World) (key value : GoString)
    (h : PutState f w key value = (none, w')) : w' = w.put key value := by
  unfold PutState at h
  cases hp : f.putState key value with
  | some err => rw [hp] at h; cases h
  | none => rw [hp] at h; exact (Prod.mk.inj h).2.symm

/-- A `PutState` changes at most the value at its key. -/
theorem PutState_frame (f : Faults) (w : World) (key value other : GoString) (h : other ≠ key) :
    (PutState f w key value).2.get other = w.get other := by
  unfold PutState
  cases f.putState key value with
  | some err => rfl
  | none => exact get_put_other w key value other h

theorem CreatePerson_ok (f : Faults) (w w' : World) (name : GoString) (age : GoInt)
    (idType : GoString) (idNo : GoInt) (address : GoString)
    (h : CreatePerson f w name age idType idNo address = (none, w')) :
    w' = w.put (Itoa idNo) (encodeText (marshalChars
      { Name := name, Age := age, IdType := idType, IdNo := idNo, Address := address,
        IsEmployed := false, IsMarried := false })) :=
  PutState_ok f w w' _ _ h

theorem UpdateDetails_ok (f : Faults) (w w' : World) (idNo age : GoInt) (address : GoString)
    (isEmployed isMarried : Bool)
    (h : UpdateDetails f w idNo age address isEmployed isMarried = (none, w')) :
    ∃ p, GetById f w idNo = .ok p ∧
      w' = w.put (Itoa idNo) (encodeText (marshalChars
        { p with Age := age, Address := address, IsEmployed := isEmployed,
                 IsMarried := isMarried })) := by
  unfold UpdateDetails at h
  cases hg : GetById f w idNo with
  | error err => rw [hg] at h; cases h
  | ok p =>
    rw [hg] at h
    exact ⟨p, rfl, PutState_ok f w w' _ _ h⟩

theorem DelState_ok (f : Faults) (w w' : World) (key : GoString)
    (h : DelState f w key = (none, w')) : w' = w.del key := by
  unfold DelState at h
  cases hp : f.delState key with
  | some err => rw [hp] at h; cases h
  | none => rw [hp] at h; exact (Prod.mk.inj h).2.symm

theorem DeleteAll_ok (f : Faults) (w w' : World) (key : GoInt)
    (h : DeleteAll f w key = (none, w')) :
    ∃ data, GetById f w key = .ok data ∧ w' = w.del (Itoa data.IdNo) := by
  unfold DeleteAll at h
  cases hg : GetById f w key with
  | error err => rw [hg] at h; cases h
  | ok data =>
    rw [hg] at h
    exact ⟨data, rfl, DelState_ok f w w' _ h⟩

/-! ## The key invariant -/

theorem keyedById_put (w : World) (p : Person) (h : KeyedById w) :
    KeyedById (w.put (Itoa p.IdNo) (encodeText (marshalChars p))) := by
  intro kv hkv
  rcases mem_put w _ _ kv hkv with rfl | hmem
  · exact ⟨coerce p, jsonUnmarshal_marshal p Person.zero, rfl⟩
  · exact h kv hmem

theorem keyedById_del (w : World) (key : GoString) (h : KeyedById w) : KeyedById (w.del key) :=
  fun kv hkv => h kv (mem_del w key kv hkv)

/-- In a keyed world state, the record read at the key of `idNo` carries
`idNo`. -/
theorem keyedById_GetById (f : Faults) (w : World) (idNo : GoInt) (p : Person)
    (h : KeyedById w) (hg : GetById f w idNo = .ok p) : p.IdNo = idNo := by
  obtain ⟨-, value, hget, hdec⟩ := GetById_ok f w idNo p hg
  obtain ⟨q, hq, hkey⟩ := h _ (mem_of_get w _ _ hget)
  rw [hdec] at hq
  cases hq
  exact Itoa_injective _ _ hkey

theorem reachable_keyedById (w : World) (h : Reachable w) : KeyedById w := by
  induction h with
  | empty => intro kv hkv; cases hkv
  | create f w w' name age idType idNo address _ hstep ih =>
    rw [CreatePerson_ok f w w' name age idType idNo address hstep]
    exact keyedById_put w
      { Name := name, Age := age, IdType := idType, IdNo := idNo, Address := address,
        IsEmployed := false, IsMarried := false } ih
  | update f w w' idNo age address isEmployed isMarried _ hstep ih =>
    obtain ⟨p, hg, hw⟩ := UpdateDetails_ok f w w' idNo age address isEmployed isMarried hstep
    have hid := keyedById_GetById f w idNo p ih hg
    rw [hw]
    have := keyedById_put w
      { Name := p.Name, Age := age, IdType := p.IdType, IdNo := p.IdNo, Address := address,
        IsEmployed := isEmployed, IsMarried := isMarried } ih
    rw [← hid]
    exact this
  | delete f w w' key _ hstep ih =>
    obtain ⟨data, -, hw⟩ := DeleteAll_ok f w w' key hstep
    rw [hw]
    exact keyedById_del w _ ih

/-! ## Key order -/

theorem stringLess_irrefl (a : GoString) : stringLess a a = false := by
  induction a with
  | nil => rfl
  | cons c cs ih => simp [stringLess, ih]

theorem stringLess_trans : ∀ (a b c : GoString),
    stringLess a b = true → stringLess b c = true → stringLess a c = true := by
  intro a
  induction a with
  | nil =>
    intro b c hab hbc
    cases c with
    | nil => cases b <;> simp [stringLess] at hbc
    | cons z zs => rfl
  | cons x xs ih =>
    intro b c hab hbc
    cases b with
    | nil => simp [stringLess] at hab
    | cons y ys =>
      cases c with
      | nil => simp [stringLess] at hbc
      | cons z zs =>
        simp only [stringLess] at hab hbc ⊢
        by_cases hxy : x.val < y.val
        · by_cases hyz : y.val < z.val
          · have : x.val < z.val := by omega
            simp [this]
          · by_cases hzy : z.val < y.val
            · simp [hyz, hzy] at hbc
            · have : x.val < z.val := by omega
              simp [this]
        · by_cases hyx : y.val < x.val
          · simp [hxy, hyx] at hab
          · simp only [hxy, hyx, if_false] at hab
            by_cases hyz : y.val < z.val
            · have : x.val < z.val := by omega
              simp [this]
            · by_cases hzy : z.val < y.val
              · simp [hyz, hzy] at hbc
              · simp only [hyz, hzy, if_false] at hbc
                have h1 : ¬ x.val < z.val := by omega
                have h2 : ¬ z.val < x.val := by omega
                simp only [h1, h2, if_false]
                exact ih ys zs hab hbc

theorem stringLess_total : ∀ (a b : GoString),
    a ≠ b → stringLess a b = false → stringLess b a = true := by
  intro a
  induction a with
  | nil =>
    intro b hne h
    cases b with
    | nil => exact absurd rfl hne
    | cons y ys => simp [stringLess] at h
  | cons x xs ih =>
    intro b hne h
    cases b with
    | nil => rfl
    | cons y ys =>
      simp only [stringLess] at h ⊢
      by_cases hxy : x.val < y.val
      · simp [hxy] at h
      · by_cases hyx : y.val < x.val
        · simp [hyx]
        · simp only [hxy, hyx, if_false] at h ⊢
          have hxeq : x = y := Fin.ext (by omega)
          subst hxeq
          exact ih ys (fun hs => hne (by rw [hs])) h

theorem stringLess_ne (a b : GoString) (h : stringLess a b = true) : a ≠ b := by
  rintro rfl
  rw [stringLess_irrefl] at h
  cases h

theorem put_increasing (w : World) (key value : GoString) (h : Increasing w) :
    Increasing (w.put key value) := by
  induction w with
  | nil => simp [World.put, Increasing]
  | cons kv rest ih =>
    unfold Increasing at h ih ⊢
    rw [List.pairwise_cons] at h
    unfold World.put
    split
    · rename_i heq
      rw [List.pairwise_cons]
      exact ⟨fun x hx => by simpa [← heq] using h.1 x hx, h.2⟩
    · rename_i hne
      split
      · rename_i hlt
        rw [List.pairwise_cons, List.pairwise_cons]
        refine ⟨?_, h⟩
        intro x hx
        rcases List.mem_cons.mp hx with rfl | hx
        · exact hlt
        · exact stringLess_trans _ _ _ hlt (h.1 x hx)
      · rename_i hnlt
        rw [List.pairwise_cons]
        refine ⟨?_, ih h.2⟩
        intro x hx
        rcases mem_put rest key value x hx with rfl | hx
        · exact stringLess_total _ _ (fun e => hne e.symm) (by simpa using hnlt)
        · exact h.1 x hx

theorem del_increasing (w : World) (key : GoString) (h : Increasing w) :
    Increasing (w.del key) :=
  List.Pairwise.filter _ h

theorem reachable_increasing (w : World) (h : Reachable w) : Increasing w := by
  induction h with
  | empty => exact List.Pairwise.nil
  | create f w w' name age idType idNo address _ hstep ih =>
    rw [CreatePerson_ok f w w' name age idType idNo address hstep]
    exact put_increasing w _ _ ih
  | update f w w' idNo age address isEmployed isMarried _ hstep ih =>
    obtain ⟨p, -, hw⟩ := UpdateDetails_ok f w w' idNo age address isEmployed isMarried hstep
    rw [hw]
    exact put_increasing w _ _ ih
  | delete f w w' key _ hstep ih =>
    obtain ⟨data, -, hw⟩ := DeleteAll_ok f w w' key hstep
    rw [hw]
    exact del_increasing w _ ih

/-! ## Create, read, update, delete -/

/-- What `GetById` returns after a successful `CreatePerson`, in general: the created
record with its strings coerced to valid UTF-8. -/
theorem CreatePerson_GetById_coerced (f g : Faults) (w w' : World) (name : GoString)
    (age : GoInt) (idType : GoString) (idNo : GoInt) (address : GoString)
    (hcreate : CreatePerson f w name age idType idNo address = (none, w'))
    (hread : g.getState (Itoa idNo) = none) :
    GetById g w' idNo = .ok (coerce (created name age idType idNo address)) := by
  rw [GetById_of_read g w' idNo hread,
    CreatePerson_ok f w w' name age idType idNo address hcreate, get_put_same]
  exact jsonUnmarshal_marshal _ _

/-- C1, as stated, fails: a name that is not valid UTF-8 is not read back.  Creating
a person whose name is the single byte `0xFF` on the empty world state
succeeds; the value written at key `7` carries the name as the escape `\ufffd`,
because `json.Marshal` coerces strings to valid UTF-8, and `GetById` then
returns the name `EF BF BD`, the encoding of U+FFFD. -/
theorem CreatePerson_GetById_counterexample :
    CreatePerson Faults.none [] [255] ⟨30, by decide⟩ (lit "passport") seven (lit "12 Main St")
      = (none, [{ Key := lit "7",
                  Value := lit ("\x7b\"name\":\"\\ufffd\",\"age\":30,\"idType\":\"passport\"," ++
                    "\"idNo\":7,\"address\":\"12 Main St\",\"isEmployed\":false," ++
                    "\"isMarried\":false\x7d") }])
    ∧ GetById Faults.none
        [{ Key := lit "7",
           Value := lit ("\x7b\"name\":\"\\ufffd\",\"age\":30,\"idType\":\"passport\"," ++
             "\"idNo\":7,\"address\":\"12 Main St\",\"isEmployed\":false," ++
             "\"isMarried\":false\x7d") }] seven
      = .ok { Name := [239, 191, 189], Age := ⟨30, by decide⟩, IdType := lit "passport",
              IdNo := seven, Address := lit "12 Main St", IsEmployed := false,
              IsMarried := false }
    ∧ ([239, 191, 189] : GoString) ≠ [255] := by
  have hcreate : CreatePerson Faults.none [] [255] ⟨30, by decide⟩ (lit "passport") seven
      (lit "12 Main St")
      = (none, [{ Key := lit "7",
                  Value := lit ("\x7b\"name\":\"\\ufffd\",\"age\":30,\"idType\":\"passport\"," ++
                    "\"idNo\":7,\"address\":\"12 Main St\",\"isEmployed\":false," ++
                    "\"isMarried\":false\x7d") }]) := by
    decide
  exact ⟨hcreate,
    CreatePerson_GetById_coerced Faults.none Faults.none [] _ [255] ⟨30, by decide⟩
      (lit "passport") seven (lit "12 Main St") hcreate rfl,
    by decide⟩

/-- C1, amended (round trip). For every world state, also one that already holds a
record at the key, and all arguments whose name, idType and address are valid
UTF-8: if `CreatePerson` succeeds, then `GetById` with the same `idNo` on the
resulting world state (its read going through) succeeds and returns the record
with exactly the given name, age, idType, idNo and address and with
`isEmployed` and `isMarried` both false. -/
theorem CreatePerson_GetById (f g : Faults) (w w' : World) (name : GoString) (age : GoInt)
    (idType : GoString) (idNo : GoInt) (address : GoString)
    (hname : ValidUTF8 name) (hidType : ValidUTF8 idType) (haddress : ValidUTF8 address)
    (hcreate : CreatePerson f w name age idType idNo address = (none, w'))
    (hread : g.getState (Itoa idNo) = none) :
    GetById g w' idNo = .ok
      { Name := name, Age := age, IdType := idType, IdNo := idNo, Address := address,
        IsEmployed := false, IsMarried := false } := by
  rw [CreatePerson_GetById_coerced f g w w' name age idType idNo address hcreate hread,
    coerce_of_wellFormed _ ⟨hname, hidType, haddress⟩]
  rfl

/-- C1, amended, instance: creating a person on a world state that already holds a
value at key `7` and reading it back. -/
theorem CreatePerson_GetById_witness :
    ValidUTF8 (lit "Ann") ∧ ValidUTF8 (lit "passport") ∧ ValidUTF8 (lit "12 Main St")
    ∧ CreatePerson Faults.none [{ Key := lit "7", Value := lit "old" }] (lit "Ann")
        ⟨30, by decide⟩ (lit "passport") seven (lit "12 Main St")
      = (none, (CreatePerson Faults.none [{ Key := lit "7", Value := lit "old" }] (lit "Ann")
          ⟨30, by decide⟩ (lit "passport") seven (lit "12 Main St")).2)
    ∧ GetById Faults.none
        (CreatePerson Faults.none [{ Key := lit "7", Value := lit "old" }] (lit "Ann")
          ⟨30, by decide⟩ (lit "passport") seven (lit "12 Main St")).2 seven
      = .ok { Name := lit "Ann", Age := ⟨30, by decide⟩, IdType := lit "passport",
              IdNo := seven, Address := lit "12 Main St", IsEmployed := false,
              IsMarried := false } :=
  ⟨validUTF8_encodeText _, validUTF8_encodeText _, validUTF8_encodeText _, rfl,
    CreatePerson_GetById Faults.none Faults.none _ _ (lit "Ann") ⟨30, by decide⟩
      (lit "passport") seven (lit "12 Main St") (validUTF8_encodeText _)
      (validUTF8_encodeText _) (validUTF8_encodeText _) rfl rfl⟩

/-- What `GetById` returns after a successful `UpdateDetails`, in general: the record
read before with the four fields replaced, the new address coerced to valid
UTF-8. -/
theorem UpdateDetails_GetById_coerced (f₀ f g : Faults) (w w' : World) (idNo age : GoInt)
    (address : GoString) (isEmployed isMarried : Bool) (p : Person)
    (hp : GetById f₀ w idNo = .ok p)
    (hupdate : UpdateDetails f w idNo age address isEmployed isMarried = (none, w'))
    (hread : g.getState (Itoa idNo) = none) :
    GetById g w' idNo = .ok
      { Name := p.Name, Age := age, IdType := p.IdType, IdNo := p.IdNo,
        Address := toValidUTF8 address, IsEmployed := isEmployed, IsMarried := isMarried } := by
  obtain ⟨q, hq, hw⟩ := UpdateDetails_ok f w w' idNo age address isEmployed isMarried hupdate
  obtain ⟨-, value, hget, hdec⟩ := GetById_ok f₀ w idNo p hp
  obtain ⟨-, value', hget', hdec'⟩ := GetById_ok f w idNo q hq
  have hpq : q = p := by
    rw [hget] at hget'
    cases hget'
    rw [hdec] at hdec'
    cases hdec'
    rfl
  subst hpq
  obtain ⟨h1, h2, -⟩ := jsonUnmarshal_wellFormed value q hdec
  rw [GetById_of_read g w' idNo hread, hw, get_put_same]
  refine (jsonUnmarshal_marshal _ _).trans ?_
  unfold ValidUTF8 at h1 h2
  simp only [coerce, h1, h2]

/-- Reading `ann` back from `annWorld`. -/
theorem GetById_annWorld : GetById Faults.none annWorld seven = .ok ann :=
  CreatePerson_GetById_coerced Faults.none Faults.none [] annWorld (lit "Ann") ⟨30, by decide⟩
    (lit "passport") seven (lit "12 Main St") rfl rfl

/-- Updating `ann` in `annWorld` succeeds when the ledger does not fail. -/
theorem UpdateDetails_annWorld (age : GoInt) (address : GoString) (isEmployed isMarried : Bool) :
    UpdateDetails Faults.none annWorld seven age address isEmployed isMarried
      = (none, (UpdateDetails Faults.none annWorld seven age address isEmployed isMarried).2) := by
  unfold UpdateDetails
  rw [GetById_annWorld]
  rfl

/-- C2, as stated, fails: an address that is not valid UTF-8 is not read back.
Updating the record of `ann` with the address `0xFF` succeeds; the value
written at key `7` carries the address as the escape `\ufffd`, and `GetById`
then returns the address `EF BF BD`, the encoding of U+FFFD. -/
theorem UpdateDetails_GetById_counterexample :
    GetById Faults.none annWorld seven = .ok ann
    ∧ UpdateDetails Faults.none annWorld seven ⟨31, by decide⟩ [255] true true
      = (none, [{ Key := lit "7",
                  Value := lit ("\x7b\"name\":\"Ann\",\"age\":31,\"idType\":\"passport\"," ++
                    "\"idNo\":7,\"address\":\"\\ufffd\",\"isEmployed\":true," ++
                    "\"isMarried\":true\x7d") }])
    ∧ GetById Faults.none
        [{ Key := lit "7",
           Value := lit ("\x7b\"name\":\"Ann\",\"age\":31,\"idType\":\"passport\"," ++
             "\"idNo\":7,\"address\":\"\\ufffd\",\"isEmployed\":true," ++
             "\"isMarried\":true\x7d") }] seven
      = .ok { Name := lit "Ann", Age := ⟨31, by decide⟩, IdType := lit "passport",
              IdNo := seven, Address := [239, 191, 189], IsEmployed := true,
              IsMarried := true }
    ∧ ([239, 191, 189] : GoString) ≠ [255] := by
  have hupdate : UpdateDetails Faults.none annWorld seven ⟨31, by decide⟩ [255] true true
      = (none, [{ Key := lit "7",
                  Value := lit ("\x7b\"name\":\"Ann\",\"age\":31,\"idType\":\"passport\"," ++
                    "\"idNo\":7,\"address\":\"\\ufffd\",\"isEmployed\":true," ++
                    "\"isMarried\":true\x7d") }]) := by
    unfold UpdateDetails
    rw [GetById_annWorld]
    decide
  exact ⟨GetById_annWorld, hupdate,
    UpdateDetails_GetById_coerced Faults.none Faults.none Faults.none annWorld _ seven
      ⟨31, by decide⟩ [255] true true ann GetById_annWorld hupdate rfl,
    by decide⟩

/-- C2, amended (immutable fields). For every world state in which `GetById idNo`
returns a person `p` and all update arguments with an address that is valid
UTF-8: if `UpdateDetails` succeeds, then `GetById` on the resulting world state
returns a person whose name, idType and idNo are those of `p` and whose age,
address, isEmployed and isMarried are the update arguments. -/
theorem UpdateDetails_GetById (f₀ f g : Faults) (w w' : World) (idNo age : GoInt)
    (address : GoString) (isEmployed isMarried : Bool) (p : Person)
    (haddress : ValidUTF8 address)
    (hp : GetById f₀ w idNo = .ok p)
    (hupdate : UpdateDetails f w idNo age address isEmployed isMarried = (none, w'))
    (hread : g.getState (Itoa idNo) = none) :
    GetById g w' idNo = .ok
      { Name := p.Name, Age := age, IdType := p.IdType, IdNo := p.IdNo, Address := address,
        IsEmployed := isEmployed, IsMarried := isMarried } := by
  rw [UpdateDetails_GetById_coerced f₀ f g w w' idNo age address isEmployed isMarried p hp
    hupdate hread]
  unfold ValidUTF8 at haddress
  rw [haddress]

/-- C2, amended, instance: updating the record created for `ann`. -/
theorem UpdateDetails_GetById_witness :
    ValidUTF8 (lit "3 Side Rd")
    ∧ GetById Faults.none annWorld seven = .ok ann
    ∧ UpdateDetails Faults.none annWorld seven ⟨31, by decide⟩ (lit "3 Side Rd") true true
      = (none,
          (UpdateDetails Faults.none annWorld seven ⟨31, by decide⟩ (lit "3 Side Rd") true true).2)
    ∧ GetById Faults.none
        (UpdateDetails Faults.none annWorld seven ⟨31, by decide⟩ (lit "3 Side Rd") true true).2
        seven
      = .ok { Name := lit "Ann", Age := ⟨31, by decide⟩, IdType := lit "passport",
              IdNo := seven, Address := lit "3 Side Rd", IsEmployed := true,
              IsMarried := true } :=
  ⟨validUTF8_encodeText _, GetById_annWorld, UpdateDetails_annWorld _ _ _ _,
    UpdateDetails_GetById Faults.none Faults.none Faults.none annWorld _ seven ⟨31, by decide⟩
      (lit "3 Side Rd") true true ann (validUTF8_encodeText _) GetById_annWorld
      (UpdateDetails_annWorld _ _ _ _) rfl⟩

/-- C3 (delete, then read). For every world state reached from the empty one by
successful `CreatePerson`, `UpdateDetails` and `DeleteAll` calls and every `idNo`:
if `DeleteAll idNo` succeeds, then `GetById idNo` on the resulting world state
fails with the error "GetById: the person <idNo> does not exist". -/
theorem DeleteAll_GetById (f g : Faults) (w w' : World) (idNo : GoInt)
    (hreach : Reachable w) (hdelete : DeleteAll f w idNo = (none, w'))
    (hread : g.getState (Itoa idNo) = none) :
    GetById g w' idNo
      = .error (Error.errorf
          (lit "GetById: the person " ++ Itoa idNo ++ lit " does not exist")) := by
  obtain ⟨data, hg, hw⟩ := DeleteAll_ok f w w' idNo hdelete
  have hid := keyedById_GetById f w idNo data (reachable_keyedById w hreach) hg
  rw [GetById_of_read g w' idNo hread, hw, hid, get_del_same]
  rfl

/-- The world state `annWorld` is reached by one `CreatePerson`. -/
theorem reachable_annWorld : Reachable annWorld :=
  Reachable.create Faults.none [] annWorld (lit "Ann") ⟨30, by decide⟩ (lit "passport") seven
    (lit "12 Main St") Reachable.empty rfl

/-- Deleting `ann` from `annWorld` leaves the empty world state. -/
theorem DeleteAll_annWorld : DeleteAll Faults.none annWorld seven = (none, []) := by
  unfold DeleteAll
  rw [GetById_annWorld]
  rfl

/-- C3, instance: deleting the only record of `annWorld`. -/
theorem DeleteAll_GetById_witness :
    Reachable annWorld
    ∧ DeleteAll Faults.none annWorld seven = (none, [])
    ∧ GetById Faults.none [] seven
      = .error (Error.errorf (lit "GetById: the person 7 does not exist")) :=
  ⟨reachable_annWorld, DeleteAll_annWorld,
    DeleteAll_GetById Faults.none Faults.none annWorld [] seven reachable_annWorld
      DeleteAll_annWorld rfl⟩

/-- C4 (update of a missing record). For every world state that holds no value at
the decimal-string key of `idNo` and all update arguments: `UpdateDetails`
(its read going through) returns the not-found error and leaves the world
state as it was, whatever a `PutState` would have done. -/
theorem UpdateDetails_missing (f : Faults) (w : World) (idNo age : GoInt) (address : GoString)
    (isEmployed isMarried : Bool) (habsent : w.get (Itoa idNo) = none)
    (hread : f.getState (Itoa idNo) = none) :
    UpdateDetails f w idNo age address isEmployed isMarried
      = (some (Error.errorf
          (lit "GetById: the person " ++ Itoa idNo ++ lit " does not exist")), w) := by
  unfold UpdateDetails
  rw [GetById_of_read f w idNo hread, habsent]
  rfl

/-- C4, instance: updating `idNo` 5 on a world state that only holds key `7`. -/
theorem UpdateDetails_missing_witness :
    annWorld.get (Itoa five) = none
    ∧ UpdateDetails Faults.none annWorld five ⟨31, by decide⟩ (lit "3 Side Rd") true true
      = (some (Error.errorf (lit "GetById: the person 5 does not exist")), annWorld) :=
  ⟨rfl, UpdateDetails_missing Faults.none annWorld five ⟨31, by decide⟩ (lit "3 Side Rd") true
    true rfl rfl⟩

/-! ## Keys and identifiers -/

/-- Strictly increasing keys are pairwise different. -/
theorem increasing_keys_differ (w : World) (h : Increasing w) :
    w.Pairwise fun a b => a.Key ≠ b.Key :=
  List.Pairwise.imp (fun hab => stringLess_ne _ _ hab) h

/-- C8 (key invariant). In every world state reached from the empty one by
successful `CreatePerson`, `UpdateDetails` and `DeleteAll` calls, every present key
holds a record whose `idNo` has that key as its decimal string; consequently two
entries with different keys hold records with different `idNo`.  Moreover the
keys of the stored pairs are pairwise different, so there is at most one
record per `idNo`. -/
theorem reachable_key_is_idNo (w : World) (hreach : Reachable w) :
    (∀ key value, w.get key = some value →
        ∃ p, jsonUnmarshal value Person.zero = .ok p ∧ Itoa p.IdNo = key)
    ∧ (∀ kv ∈ w, ∃ p, jsonUnmarshal kv.Value Person.zero = .ok p ∧ Itoa p.IdNo = kv.Key)
    ∧ (∀ a ∈ w, ∀ b ∈ w, ∀ p q, jsonUnmarshal a.Value Person.zero = .ok p →
        jsonUnmarshal b.Value Person.zero = .ok q → a.Key ≠ b.Key → p.IdNo ≠ q.IdNo)
    ∧ (w.Pairwise fun a b => a.Key ≠ b.Key) := by
  have hkeyed := reachable_keyedById w hreach
  refine ⟨fun key value hget => hkeyed _ (mem_of_get w key value hget), hkeyed, ?_,
    increasing_keys_differ w (reachable_increasing w hreach)⟩
  intro a ha b hb p q hp hq hne hid
  obtain ⟨p', hp', hka⟩ := hkeyed a ha
  obtain ⟨q', hq', hkb⟩ := hkeyed b hb
  rw [hp] at hp'
  rw [hq] at hq'
  cases hp'
  cases hq'
  exact hne (by rw [← hka, ← hkb, hid])

/-- C8, instance: the world state holding `ann`, reached by one `CreatePerson`. -/
theorem reachable_key_is_idNo_witness :
    Reachable annWorld
    ∧ (∀ key value, annWorld.get key = some value →
        ∃ p, jsonUnmarshal value Person.zero = .ok p ∧ Itoa p.IdNo = key)
    ∧ (∀ kv ∈ annWorld, ∃ p, jsonUnmarshal kv.Value Person.zero = .ok p ∧ Itoa p.IdNo = kv.Key)
    ∧ (∀ a ∈ annWorld, ∀ b ∈ annWorld, ∀ p q, jsonUnmarshal a.Value Person.zero = .ok p →
        jsonUnmarshal b.Value Person.zero = .ok q → a.Key ≠ b.Key → p.IdNo ≠ q.IdNo)
    ∧ (annWorld.Pairwise fun a b => a.Key ≠ b.Key) :=
  ⟨reachable_annWorld,
    reachable_key_is_idNo annWorld
      reachable_annWorld⟩

/-- Reading key `5` of `mislabelled` gives the record of `ann`. -/
theorem GetById_mislabelled : GetById Faults.none mislabelled five = .ok ann := by
  rw [GetById_of_read Faults.none mislabelled five rfl]
  exact jsonUnmarshal_marshal ann Person.zero

/-- C9, as stated, fails: in the world state `mislabelled` the value at key `5` is
the encoding of a record with `idNo` 7.  The read inside `DeleteAll 5` succeeds
and returns that record, so the key passed to `DelState` is `7`, not `5`: the
entry at key `5` stays and the entry at key `7` is removed. -/
theorem DeleteAll_key_counterexample :
    mislabelled.get (lit "5")
      = some (lit ("\x7b\"name\":\"Ann\",\"age\":30,\"idType\":\"passport\"," ++
          "\"idNo\":7,\"address\":\"12 Main St\",\"isEmployed\":false,\"isMarried\":false\x7d"))
    ∧ GetById Faults.none mislabelled five = .ok ann
    ∧ Itoa ann.IdNo = lit "7" ∧ Itoa five = lit "5"
    ∧ DeleteAll Faults.none mislabelled five = DelState Faults.none mislabelled (lit "7")
    ∧ DeleteAll Faults.none mislabelled five
      = (none, [{ Key := lit "5", Value := encodeText (marshalChars ann) }]) := by
  have hdel : DeleteAll Faults.none mislabelled five
      = DelState Faults.none mislabelled (lit "7") := by
    unfold DeleteAll
    rw [GetById_mislabelled]
    rfl
  refine ⟨by decide, GetById_mislabelled, rfl, rfl, hdel, ?_⟩
  rw [hdel]
  rfl

/-- C9, amended. For every world state reached from the empty one by successful
`CreatePerson`, `UpdateDetails` and `DeleteAll` calls and every `idNo` for which
the read inside `DeleteAll` succeeds with a record `data`: the key derived from
`data.IdNo` is the decimal string of the input `idNo`, and `DeleteAll` is the
`DelState` of exactly that key. -/
theorem DeleteAll_key (f : Faults) (w : World) (idNo : GoInt) (data : Person)
    (hreach : Reachable w) (hg : GetById f w idNo = .ok data) :
    Itoa data.IdNo = Itoa idNo ∧ DeleteAll f w idNo = DelState f w (Itoa idNo) := by
  have hid := keyedById_GetById f w idNo data (reachable_keyedById w hreach) hg
  refine ⟨by rw [hid], ?_⟩
  unfold DeleteAll
  rw [hg]
  dsimp only
  rw [hid]

/-- C9, amended, instance: deleting `ann` from `annWorld`. -/
theorem DeleteAll_key_witness :
    Reachable annWorld ∧ GetById Faults.none annWorld seven = .ok ann
    ∧ Itoa ann.IdNo = Itoa seven
    ∧ DeleteAll Faults.none annWorld seven = DelState Faults.none annWorld (Itoa seven) :=
  ⟨reachable_annWorld, GetById_annWorld,
    DeleteAll_key Faults.none annWorld seven ann reachable_annWorld GetById_annWorld⟩

/-- The result of `GetById` depends on the world state only through the value at its key. -/
theorem GetById_congr (g : Faults) (w w' : World) (idNo : GoInt)
    (h : w'.get (Itoa idNo) = w.get (Itoa idNo)) : GetById g w' idNo = GetById g w idNo := by
  unfold GetById GetState
  rw [h]

theorem CreatePerson_frame (f : Faults) (w : World) (name : GoString) (age : GoInt)
    (idType : GoString) (idNo : GoInt) (address : GoString) (other : GoString)
    (h : other ≠ Itoa idNo) :
    (CreatePerson f w name age idType idNo address).2.get other = w.get other :=
  PutState_frame f w _ _ other h

theorem UpdateDetails_frame (f : Faults) (w : World) (idNo age : GoInt) (address : GoString)
    (isEmployed isMarried : Bool) (other : GoString) (h : other ≠ Itoa idNo) :
    (UpdateDetails f w idNo age address isEmployed isMarried).2.get other = w.get other := by
  unfold UpdateDetails
  cases GetById f w idNo with
  | error err => rfl
  | ok p => exact PutState_frame f w _ _ other h

/-- C10 (frame). For every world state and distinct integers `a` and `b`: the
decimal-string keys of `a` and `b` differ, so a `CreatePerson` or `UpdateDetails`
call with `idNo` `a`, successful or not, leaves the value stored at the key of
`b` unchanged, and `GetById b` returns the same result before and after the
call. -/
theorem write_frame (f g : Faults) (w : World) (a b : GoInt) (name : GoString) (age : GoInt)
    (idType : GoString) (address : GoString) (isEmployed isMarried : Bool) (hab : a ≠ b) :
    Itoa a ≠ Itoa b
    ∧ (CreatePerson f w name age idType a address).2.get (Itoa b) = w.get (Itoa b)
    ∧ (UpdateDetails f w a age address isEmployed isMarried).2.get (Itoa b) = w.get (Itoa b)
    ∧ GetById g (CreatePerson f w name age idType a address).2 b = GetById g w b
    ∧ GetById g (UpdateDetails f w a age address isEmployed isMarried).2 b = GetById g w b := by
  have hne : Itoa b ≠ Itoa a := fun h => hab (Itoa_injective b a h).symm
  have h1 := CreatePerson_frame f w name age idType a address (Itoa b) hne
  have h2 := UpdateDetails_frame f w a age address isEmployed isMarried (Itoa b) hne
  exact ⟨Ne.symm hne, h1, h2, GetById_congr g _ _ b h1, GetById_congr g _ _ b h2⟩

/-- C10, instance: writes under `idNo` 5 next to the record of `ann` at key `7`. -/
theorem write_frame_witness :
    five ≠ seven
    ∧ Itoa five ≠ Itoa seven
    ∧ (CreatePerson Faults.none annWorld (lit "Bob") ⟨41, by decide⟩ (lit "licence") five
        (lit "9 Low Rd")).2.get (Itoa seven) = annWorld.get (Itoa seven)
    ∧ (UpdateDetails Faults.none annWorld five ⟨41, by decide⟩ (lit "9 Low Rd") true false).2.get
        (Itoa seven) = annWorld.get (Itoa seven)
    ∧ GetById Faults.none
        (CreatePerson Faults.none annWorld (lit "Bob") ⟨41, by decide⟩ (lit "licence") five
          (lit "9 Low Rd")).2 seven
      = GetById Faults.none annWorld seven
    ∧ GetById Faults.none
        (UpdateDetails Faults.none annWorld five ⟨41, by decide⟩ (lit "9 Low Rd") true false).2
        seven
      = GetById Faults.none annWorld seven :=
  ⟨by decide, write_frame Faults.none Faults.none annWorld five seven (lit "Bob")
    ⟨41, by decide⟩ (lit "licence") (lit "9 Low Rd") true false (by decide)⟩

/-! ## Listings -/

theorem iterateFrom_of_next (f : Faults) (hnext : ∀ i, f.next i = none) (kvs : List KV) :
    ∀ i, iterateFrom f i kvs = kvs.map Except.ok := by
  induction kvs with
  | nil => intro i; rfl
  | cons kv rest ih => intro i; simp [iterateFrom, hnext i, ih (i + 1)]

theorem records_cons_ok (kv : KV) (rest : List KV) (p : Person)
    (h : jsonUnmarshal kv.Value Person.zero = .ok p) :
    records (kv :: rest) = p :: records rest := by
  simp [records, List.filterMap_cons, h, Except.toOption]

theorem records_cons_error (kv : KV) (rest : List KV) (e : Error)
    (h : jsonUnmarshal kv.Value Person.zero = .error e) :
    records (kv :: rest) = records rest := by
  simp [records, List.filterMap_cons, h, Except.toOption]

/-- The unmarried ones among some records. -/
theorem unmarried_cons (p : Person) (ps : List Person) :
    (p :: ps).filter (fun q => !q.IsMarried)
      = if !p.IsMarried then p :: ps.filter (fun q => !q.IsMarried)
        else ps.filter (fun q => !q.IsMarried) := by
  cases h : p.IsMarried <;> simp [List.filter_cons, h]

/-- When the loop of `GetEmployed` ends normally, it has appended the unmarried
records of the iterated pairs, in order. -/
theorem employedLoop_ok (f : Faults) (kvs : List KV) :
    ∀ (i : Nat) (acc ps : List Person), employedLoop (iterateFrom f i kvs) acc = .ok ps →
      ps = acc ++ (records kvs).filter (fun q => !q.IsMarried) := by
  induction kvs with
  | nil =>
    intro i acc ps h
    simp only [iterateFrom, employedLoop] at h
    cases h
    simp [records]
  | cons kv rest ih =>
    intro i acc ps h
    simp only [iterateFrom] at h
    cases hn : f.next i with
    | some err => rw [hn] at h; simp [employedLoop] at h
    | none =>
      rw [hn] at h
      simp only [employedLoop] at h
      cases hd : jsonUnmarshal kv.Value Person.zero with
      | error e => rw [hd] at h; cases h
      | ok p =>
        rw [hd] at h
        rw [records_cons_ok kv rest p hd, unmarried_cons]
        cases hm : p.IsMarried with
        | true =>
          simp only [hm, Bool.not_true, Bool.false_eq_true, if_false] at h ⊢
          exact ih _ _ _ h
        | false =>
          simp only [hm, Bool.not_false, if_true] at h ⊢
          have := ih _ _ _ h
          simpa using this

/-- Without failures the loop of `GetEmployed` ends normally. -/
theorem employedLoop_total (kvs : List KV)
    (hall : ∀ kv ∈ kvs, ∃ p, jsonUnmarshal kv.Value Person.zero = .ok p) :
    ∀ acc : List Person, employedLoop (kvs.map Except.ok) acc
      = .ok (acc ++ (records kvs).filter (fun q => !q.IsMarried)) := by
  induction kvs with
  | nil => intro acc; simp [employedLoop, records]
  | cons kv rest ih =>
    intro acc
    obtain ⟨p, hd⟩ := hall kv (List.mem_cons_self _ _)
    have ih' := ih (fun x hx => hall x (List.mem_cons_of_mem _ hx))
    rw [records_cons_ok kv rest p hd, unmarried_cons]
    simp only [List.map_cons, employedLoop, hd]
    cases hm : p.IsMarried with
    | true => simp only [Bool.not_true, Bool.false_eq_true, if_false]; exact ih' acc
    | false =>
      simp only [Bool.not_false, if_true]
      rw [ih' (acc ++ [p])]
      simp

theorem selectorQuery_injective (a b : Bool) (h : selectorQuery a = selectorQuery b) : a = b := by
  revert h
  cases a <;> cases b <;> decide

/-- The records among the selected pairs are the records with the flag. -/
theorem records_selected (flag : Bool) (w : World) :
    records (w.filter (selects (selectorQuery flag)))
      = (records w).filter (fun p => p.IsEmployed = flag) := by
  induction w with
  | nil => rfl
  | cons kv rest ih =>
    cases hd : jsonUnmarshal kv.Value Person.zero with
    | error e =>
      have hsel : selects (selectorQuery flag) kv = false := by simp [selects, hd]
      rw [List.filter_cons, hsel, records_cons_error kv rest e hd]
      exact ih
    | ok p =>
      rw [records_cons_ok kv rest p hd, List.filter_cons]
      by_cases hflag : p.IsEmployed = flag
      · have hsel : selects (selectorQuery flag) kv = true := by simp [selects, hd, hflag]
        rw [List.filter_cons, hsel]
        simp only [if_true, hflag, decide_True]
        rw [records_cons_ok kv _ p hd, ih]
      · have hsel : selects (selectorQuery flag) kv = false := by
          simp only [selects, hd, decide_eq_false_iff_not]
          intro h
          exact hflag (selectorQuery_injective _ _ h).symm
        rw [List.filter_cons, hsel]
        simp only [hflag, decide_False, Bool.false_eq_true, if_false]
        exact ih

theorem selected_decodes (query : GoString) (w : World) :
    ∀ kv ∈ w.filter (selects query), ∃ p, jsonUnmarshal kv.Value Person.zero = .ok p := by
  intro kv hkv
  have hsel := (List.mem_filter.mp hkv).2
  unfold selects at hsel
  cases hd : jsonUnmarshal kv.Value Person.zero with
  | error e => rw [hd] at hsel; cases hsel
  | ok p => exact ⟨p, rfl⟩

theorem filter_filter_flag (flag : Bool) (ps : List Person) :
    (ps.filter (fun p => p.IsEmployed = flag)).filter (fun q => !q.IsMarried)
      = ps.filter (fun p => decide (p.IsEmployed = flag) && !p.IsMarried) := by
  rw [List.filter_filter]
  congr 1
  funext p
  exact Bool.and_comm _ _

/-- C5 (employed filter). For every flag and world state, with the selector query
returning in key order the records whose `isEmployed` equals the flag: when
`GetEmployed flag` succeeds, its result is exactly the sequence of the stored
records whose `isEmployed` equals the flag and whose `isMarried` is false, in
the iterator's order. -/
theorem GetEmployed_result (f : Faults) (w : World) (flag : Bool) (people : List Person)
    (h : GetEmployed f w flag = .ok people) :
    people = (records w).filter (fun p => decide (p.IsEmployed = flag) && !p.IsMarried) := by
  unfold GetEmployed GetQueryResult at h
  cases hq : f.getQueryResult (selectorQuery flag) with
  | some err => simp [hq] at h
  | none =>
    simp only [hq] at h
    cases hl : employedLoop (iterateFrom f 0 (w.filter (selects (selectorQuery flag)))) [] with
    | error e => rw [hl] at h; cases h
    | ok ps =>
      rw [hl] at h
      have hps := employedLoop_ok f _ 0 [] ps hl
      rw [records_selected, filter_filter_flag, List.nil_append] at hps
      by_cases hnil : ps = []
      · simp [hnil] at h
      · simp only [hnil, if_false] at h
        cases h
        exact hps

theorem listing_cons_ok (kv : KV) (rest : List KV) (p : Person)
    (h : jsonUnmarshal kv.Value Person.zero = .ok p) :
    listing (kv :: rest) = { Key := kv.Key, Record := p } :: listing rest := by
  simp [listing, List.filterMap_cons, h]

/-- Without failures the loop of `GetPeople` appends one entry per pair. -/
theorem peopleLoop_total (kvs : List KV)
    (hall : ∀ kv ∈ kvs, ∃ p, jsonUnmarshal kv.Value Person.zero = .ok p) :
    ∀ acc : List QueryResult, peopleLoop (kvs.map Except.ok) acc = .ok (acc ++ listing kvs) := by
  induction kvs with
  | nil => intro acc; simp [peopleLoop, listing]
  | cons kv rest ih =>
    intro acc
    obtain ⟨p, hd⟩ := hall kv (List.mem_cons_self _ _)
    have ih' := ih (fun x hx => hall x (List.mem_cons_of_mem _ hx))
    rw [listing_cons_ok kv rest p hd]
    simp only [List.map_cons, peopleLoop, hd]
    simp [ih']

/-- The entries of a listing correspond, one by one, to the scanned pairs. -/
theorem listing_spec (kvs : List KV)
    (hall : ∀ kv ∈ kvs, ∃ p, jsonUnmarshal kv.Value Person.zero = .ok p) :
    (listing kvs).length = kvs.length
    ∧ (listing kvs).map (fun r => (r.Key, (Except.ok r.Record : Except Error Person)))
        = kvs.map (fun kv => (kv.Key, jsonUnmarshal kv.Value Person.zero)) := by
  induction kvs with
  | nil => exact ⟨rfl, rfl⟩
  | cons kv rest ih =>
    obtain ⟨p, hd⟩ := hall kv (List.mem_cons_self _ _)
    obtain ⟨h1, h2⟩ := ih (fun x hx => hall x (List.mem_cons_of_mem _ hx))
    rw [listing_cons_ok kv rest p hd]
    exact ⟨by simp [h1], by simp [h2, hd]⟩

/-- The range scan with empty bounds iterates over the whole world state. -/
theorem GetStateByRange_all (f : Faults) (w : World)
    (hscan : f.getStateByRange (lit "") (lit "") = none) :
    GetStateByRange f w (lit "") (lit "") = .ok (iterateFrom f 0 w) := by
  unfold GetStateByRange
  rw [hscan]
  simp [lit, encodeText]

/-- The result of `GetPeople` when neither the ledger interface nor deserialization fails. -/
theorem GetPeople_of_ok (f : Faults) (w : World)
    (hscan : f.getStateByRange (lit "") (lit "") = none) (hnext : ∀ i, f.next i = none)
    (hall : ∀ kv ∈ w, ∃ p, jsonUnmarshal kv.Value Person.zero = .ok p) :
    GetPeople f w
      = if listing w = [] then .error (Error.errorf (lit "no records available"))
        else .ok (listing w) := by
  simp only [GetPeople, GetStateByRange_all f w hscan, iterateFrom_of_next f hnext,
    peopleLoop_total w hall, List.nil_append]

theorem CreatePerson_none (w : World) (name : GoString) (age : GoInt) (idType : GoString)
    (idNo : GoInt) (address : GoString) :
    CreatePerson Faults.none w name age idType idNo address
      = (none, w.put (Itoa idNo) (encodeText (marshalChars
          (created name age idType idNo address)))) := rfl

/-- Creating records with `idNo` 1, 2 and 3 in any order on the empty world state
gives the three pairs in key order. -/
theorem createAll_three (p₁ p₂ p₃ : Person) (l : List Person)
    (h₁ : p₁.IdNo = one) (h₂ : p₂.IdNo = two) (h₃ : p₃.IdNo = three)
    (hl : l.Perm [p₁, p₂, p₃]) :
    createAll [] l =
      [{ Key := lit "1", Value := encodeText (marshalChars
          (created p₁.Name p₁.Age p₁.IdType p₁.IdNo p₁.Address)) },
       { Key := lit "2", Value := encodeText (marshalChars
          (created p₂.Name p₂.Age p₂.IdType p₂.IdNo p₂.Address)) },
       { Key := lit "3", Value := encodeText (marshalChars
          (created p₃.Name p₃.Age p₃.IdType p₃.IdNo p₃.Address)) }] := by
  have k1 : Itoa one = lit "1" := rfl
  have k2 : Itoa two = lit "2" := rfl
  have k3 : Itoa three = lit "3" := rfl
  have c12 : stringLess (lit "1") (lit "2") = true := by decide
  have c13 : stringLess (lit "1") (lit "3") = true := by decide
  have c23 : stringLess (lit "2") (lit "3") = true := by decide
  have c21 : stringLess (lit "2") (lit "1") = false := by decide
  have c31 : stringLess (lit "3") (lit "1") = false := by decide
  have c32 : stringLess (lit "3") (lit "2") = false := by decide
  have n12 : lit "1" ≠ lit "2" := by decide
  have n13 : lit "1" ≠ lit "3" := by decide
  have n23 : lit "2" ≠ lit "3" := by decide
  have n21 : lit "2" ≠ lit "1" := by decide
  have n31 : lit "3" ≠ lit "1" := by decide
  have n32 : lit "3" ≠ lit "2" := by decide
  have hmem : l ∈ [p₁, p₂, p₃].permutations' := List.mem_permutations'.mpr hl
  simp only [List.permutations', List.permutations'Aux, List.flatMap_cons, List.flatMap_nil,
    List.map_cons, List.map_nil, List.cons_append, List.nil_append, List.append_nil,
    List.mem_cons, List.mem_singleton, List.not_mem_nil, or_false] at hmem
  rcases hmem with rfl | rfl | rfl | rfl | rfl | rfl <;>
    simp [createAll, CreatePerson_none, World.put, h₁, h₂, h₃, k1, k2, k3, c12, c13, c23, c21,
      c31, c32, n12, n13, n23, n21, n31, n32]

/-- The result of `GetEmployed` when the ledger interface does not fail. -/
theorem GetEmployed_of_ok (f : Faults) (w : World) (flag : Bool)
    (hquery : f.getQueryResult (selectorQuery flag) = none) (hnext : ∀ i, f.next i = none) :
    GetEmployed f w flag
      = if (records w).filter (fun p => decide (p.IsEmployed = flag) && !p.IsMarried) = [] then
          .error (Error.errorf
            (lit "GetEmployed: the person " ++ FormatBool flag ++ lit " does not exist"))
        else .ok ((records w).filter (fun p => decide (p.IsEmployed = flag) && !p.IsMarried)) := by
  simp only [GetEmployed, GetQueryResult, hquery, iterateFrom_of_next f hnext,
    employedLoop_total _ (selected_decodes _ w), List.nil_append, records_selected,
    filter_filter_flag]

theorem wellFormed_recordA : WellFormed recordA :=
  ⟨validUTF8_encodeText _, validUTF8_encodeText _, validUTF8_encodeText _⟩

theorem wellFormed_recordB : WellFormed recordB :=
  ⟨validUTF8_encodeText _, validUTF8_encodeText _, validUTF8_encodeText _⟩

theorem wellFormed_recordC : WellFormed recordC :=
  ⟨validUTF8_encodeText _, validUTF8_encodeText _, validUTF8_encodeText _⟩

theorem records_abcWorld : records abcWorld = [recordA, recordB, recordC] := by
  simp [records, abcWorld, jsonUnmarshal_marshal, Except.toOption,
    coerce_of_wellFormed _ wellFormed_recordA, coerce_of_wellFormed _ wellFormed_recordB,
    coerce_of_wellFormed _ wellFormed_recordC]

theorem abcWorld_decodes :
    ∀ kv ∈ abcWorld, ∃ p, jsonUnmarshal kv.Value Person.zero = .ok p := by
  intro kv hkv
  simp only [abcWorld, List.mem_cons, List.mem_singleton, List.not_mem_nil, or_false] at hkv
  rcases hkv with rfl | rfl | rfl <;> exact ⟨_, jsonUnmarshal_marshal _ _⟩

theorem GetEmployed_abcWorld : GetEmployed Faults.none abcWorld true = .ok [recordA] := by
  rw [GetEmployed_of_ok Faults.none abcWorld true rfl (fun _ => rfl), records_abcWorld]
  rfl

/-- C5, instance: with records A (employed, not married), B (employed, married) and
C (not employed, not married) stored, `GetEmployed true` returns exactly `[A]`. -/
theorem GetEmployed_result_witness :
    records abcWorld = [recordA, recordB, recordC]
    ∧ GetEmployed Faults.none abcWorld true = .ok [recordA]
    ∧ [recordA] = (records abcWorld).filter
        (fun p => decide (p.IsEmployed = true) && !p.IsMarried) :=
  ⟨records_abcWorld, GetEmployed_abcWorld,
    GetEmployed_result Faults.none abcWorld true [recordA] GetEmployed_abcWorld⟩

theorem listing_eq_nil (kvs : List KV)
    (hall : ∀ kv ∈ kvs, ∃ p, jsonUnmarshal kv.Value Person.zero = .ok p) :
    listing kvs = [] ↔ kvs = [] := by
  have h := (listing_spec kvs hall).1
  constructor
  · intro hnil
    rw [hnil] at h
    exact List.length_eq_zero.mp h.symm
  · intro hnil
    rw [hnil]
    rfl

theorem wellFormed_created (p : Person) (h : WellFormed p) :
    WellFormed (created p.Name p.Age p.IdType p.IdNo p.Address) := h

/-- C6 (full listing). For every non-empty sequence of pairs yielded by the range
scan (the pairs of the world state, in order) in which every value
deserializes, the ledger interface not failing, `GetPeople` succeeds and returns
a list of the same length whose entries carry, position by position, the
scanned key and the deserialization of the scanned value.  In particular, after
creating records with `idNo` 1, 2 and 3 in any order on the empty world state,
the world state holds exactly the three written values under the keys "1",
"2", "3", and `GetPeople` returns exactly three entries with these keys and the
records that were written: the deserializations of the three written values,
which are the records passed to `CreatePerson` whenever their strings are valid
UTF-8. -/
theorem GetPeople_lists_scan :
    (∀ (f : Faults) (w : World), w ≠ [] →
      (∀ kv ∈ w, ∃ p, jsonUnmarshal kv.Value Person.zero = .ok p) →
      f.getStateByRange (lit "") (lit "") = none → (∀ i, f.next i = none) →
      GetStateByRange f w (lit "") (lit "") = .ok (w.map Except.ok) ∧
      ∃ people, GetPeople f w = .ok people ∧ people.length = w.length ∧
        people.map (fun r => (r.Key, (Except.ok r.Record : Except Error Person)))
          = w.map (fun kv => (kv.Key, jsonUnmarshal kv.Value Person.zero)))
    ∧ (∀ (p₁ p₂ p₃ : Person) (l : List Person), p₁.IdNo = one → p₂.IdNo = two →
        p₃.IdNo = three → l.Perm [p₁, p₂, p₃] →
        createAll [] l =
          [{ Key := lit "1", Value := encodeText (marshalChars
              (created p₁.Name p₁.Age p₁.IdType p₁.IdNo p₁.Address)) },
           { Key := lit "2", Value := encodeText (marshalChars
              (created p₂.Name p₂.Age p₂.IdType p₂.IdNo p₂.Address)) },
           { Key := lit "3", Value := encodeText (marshalChars
              (created p₃.Name p₃.Age p₃.IdType p₃.IdNo p₃.Address)) }]
        ∧ GetPeople Faults.none (createAll [] l) = .ok
          [{ Key := lit "1",
             Record := coerce (created p₁.Name p₁.Age p₁.IdType p₁.IdNo p₁.Address) },
           { Key := lit "2",
             Record := coerce (created p₂.Name p₂.Age p₂.IdType p₂.IdNo p₂.Address) },
           { Key := lit "3",
             Record := coerce (created p₃.Name p₃.Age p₃.IdType p₃.IdNo p₃.Address) }]
        ∧ (WellFormed p₁ → WellFormed p₂ → WellFormed p₃ →
          GetPeople Faults.none (createAll [] l) = .ok
            [{ Key := lit "1", Record := created p₁.Name p₁.Age p₁.IdType p₁.IdNo p₁.Address },
             { Key := lit "2", Record := created p₂.Name p₂.Age p₂.IdType p₂.IdNo p₂.Address },
             { Key := lit "3",
               Record := created p₃.Name p₃.Age p₃.IdType p₃.IdNo p₃.Address }])) := by
  constructor
  · intro f w hne hall hscan hnext
    refine ⟨by rw [GetStateByRange_all f w hscan, iterateFrom_of_next f hnext], listing w, ?_,
      (listing_spec w hall).1, (listing_spec w hall).2⟩
    rw [GetPeople_of_ok f w hscan hnext hall, if_neg]
    exact fun h => hne ((listing_eq_nil w hall).mp h)
  · intro p₁ p₂ p₃ l h₁ h₂ h₃ hl
    have hall : ∀ kv ∈ createAll [] l, ∃ p, jsonUnmarshal kv.Value Person.zero = .ok p := by
      intro kv hkv
      rw [createAll_three p₁ p₂ p₃ l h₁ h₂ h₃ hl] at hkv
      simp only [List.mem_cons, List.mem_singleton, List.not_mem_nil, or_false] at hkv
      rcases hkv with rfl | rfl | rfl <;> exact ⟨_, jsonUnmarshal_marshal _ _⟩
    have hget : GetPeople Faults.none (createAll [] l) = .ok
        [{ Key := lit "1",
           Record := coerce (created p₁.Name p₁.Age p₁.IdType p₁.IdNo p₁.Address) },
         { Key := lit "2",
           Record := coerce (created p₂.Name p₂.Age p₂.IdType p₂.IdNo p₂.Address) },
         { Key := lit "3",
           Record := coerce (created p₃.Name p₃.Age p₃.IdType p₃.IdNo p₃.Address) }] := by
      rw [GetPeople_of_ok Faults.none _ rfl (fun _ => rfl) hall,
        createAll_three p₁ p₂ p₃ l h₁ h₂ h₃ hl]
      simp [listing, jsonUnmarshal_marshal]
    refine ⟨createAll_three p₁ p₂ p₃ l h₁ h₂ h₃ hl, hget, ?_⟩
    intro w₁ w₂ w₃
    rw [hget, coerce_of_wellFormed _ (wellFormed_created p₁ w₁),
      coerce_of_wellFormed _ (wellFormed_created p₂ w₂),
      coerce_of_wellFormed _ (wellFormed_created p₃ w₃)]

/-- C6, instance: listing the world state that holds A, B and C. -/
theorem GetPeople_lists_scan_witness :
    abcWorld ≠ []
    ∧ GetStateByRange Faults.none abcWorld (lit "") (lit "") = .ok (abcWorld.map Except.ok)
    ∧ ∃ people, GetPeople Faults.none abcWorld = .ok people ∧ people.length = abcWorld.length ∧
        people.map (fun r => (r.Key, (Except.ok r.Record : Except Error Person)))
          = abcWorld.map (fun kv => (kv.Key, jsonUnmarshal kv.Value Person.zero)) :=
  ⟨by decide, GetPeople_lists_scan.1 Faults.none abcWorld (by decide) abcWorld_decodes rfl
    (fun _ => rfl)⟩

/-- C7 (empty results are errors). When neither the ledger interface nor
deserialization fails: `GetPeople` returns an error if and only if the range
scan yields no pair, and `GetEmployed flag` returns an error if and only if no
record yielded by the query is unmarried; neither ever succeeds with an empty
list. -/
theorem empty_result_is_error (f : Faults) (w : World) (flag : Bool)
    (hscan : f.getStateByRange (lit "") (lit "") = none)
    (hquery : f.getQueryResult (selectorQuery flag) = none)
    (hnext : ∀ i, f.next i = none)
    (hall : ∀ kv ∈ w, ∃ p, jsonUnmarshal kv.Value Person.zero = .ok p) :
    ((∃ err, GetPeople f w = .error err) ↔ w = [])
    ∧ ((∃ err, GetEmployed f w flag = .error err) ↔
        ∀ p ∈ records w, p.IsEmployed = flag → p.IsMarried = true)
    ∧ GetPeople f w ≠ .ok []
    ∧ GetEmployed f w flag ≠ .ok [] := by
  have hp := GetPeople_of_ok f w hscan hnext hall
  have he := GetEmployed_of_ok f w flag hquery hnext
  have hnil := listing_eq_nil w hall
  have hfilter : (records w).filter (fun p => decide (p.IsEmployed = flag) && !p.IsMarried) = []
      ↔ ∀ p ∈ records w, p.IsEmployed = flag → p.IsMarried = true := by
    simp [List.filter_eq_nil_iff]
  refine ⟨?_, ?_, ?_, ?_⟩
  · rw [hp, ← hnil]
    by_cases h : listing w = [] <;> simp [h]
  · rw [he, ← hfilter]
    by_cases h : (records w).filter
        (fun p => decide (p.IsEmployed = flag) && !p.IsMarried) = [] <;> simp [h]
  · rw [hp]
    by_cases h : listing w = [] <;> simp [h]
  · rw [he]
    by_cases h : (records w).filter
        (fun p => decide (p.IsEmployed = flag) && !p.IsMarried) = [] <;> simp [h]

/-- C7, instance: on the empty world state both listings fail. -/
theorem empty_result_is_error_witness :
    ((∃ err, GetPeople Faults.none [] = .error err) ↔ ([] : World) = [])
    ∧ ((∃ err, GetEmployed Faults.none [] true = .error err) ↔
        ∀ p ∈ records [], p.IsEmployed = true → p.IsMarried = true)
    ∧ GetPeople Faults.none [] ≠ .ok []
    ∧ GetEmployed Faults.none [] true ≠ .ok [] :=
  empty_result_is_error Faults.none [] true rfl rfl (fun _ => rfl)
    (fun _ h => absurd h (List.not_mem_nil _))

end Profile
